import Mathlib

/-!
Verification of the source-text structural analysis and code-synthesis
engine of a C# "create derived class" editor extension, against its
natural-language specification.

Strings are modelled as lists of characters (`Str`).  Every JavaScript
string operation used by the code (split, trim, regular-expression
matching) is embedded as an executable function on `Str`; regular
expressions are embedded as explicit scanners that follow the JS engine's
ordered-alternative, greedy-with-backtracking semantics for the concrete
patterns appearing in the source.
-/

/-- Strings as lists of characters. -/
abbrev Str := List Char

/-- JS `\s` (whitespace class) restricted to the ASCII inputs of interest. -/
def isWs (c : Char) : Bool := c.isWhitespace

/-- JS `\w`, i.e. `[A-Za-z0-9_]`. -/
def isWordChar (c : Char) : Bool := c.isAlphanum || c == '_'

/-- JS `String.prototype.trim` (both ends). -/
def trimWs (s : Str) : Str := ((s.dropWhile isWs).reverse.dropWhile isWs).reverse

/-- Split a list at every character satisfying `p` (separators deleted,
empty pieces kept), the semantics of JS `split` with a one-character
separator class. -/
def splitOnPred (p : Char → Bool) : Str → List Str
  | [] => [[]]
  | c :: rest =>
    if p c then [] :: splitOnPred p rest
    else
      match splitOnPred p rest with
      | [] => [[c]]
      | t :: ts => (c :: t) :: ts

/-- JS `String.prototype.split` with a single-character separator string. -/
def splitOnChar (sep : Char) (s : Str) : List Str := splitOnPred (· == sep) s

/-- JS `split(/\s+/)` on a trimmed string: the maximal whitespace-free
runs.  (For a trimmed non-empty string, JS produces no empty fields; the
code only applies this after `trim`, and guards the empty string away.) -/
def wsTokens (s : Str) : List Str := (splitOnPred isWs s).filter (· ≠ [])

/-- JS `s.split(sep)[0]` for a one-character separator: the prefix of `s`
up to (not including) the first occurrence of `sep`. -/
def beforeChar (sep : Char) (s : Str) : Str := s.takeWhile (· ≠ sep)

/-- JS `Array.prototype.join(sep)`. -/
def joinSep (sep : Str) : List Str → Str
  | [] => []
  | [a] => a
  | a :: b :: rest => a ++ sep ++ joinSep sep (b :: rest)

/-! ### `createDerivedClass` — constructor argument forwarding

`buildArgumentList` (src/unnamed/part_002 lines 264–297, identical copy in
part_001): from the raw parameter-list text, split on `,`; for each part
drop everything from the first `=` on, trim, split on whitespace; the last
token is the parameter name, and every token equal to one of
`ref`/`out`/`in`/`this` is re-prepended. -/

/-- The parameter modifiers recognised by `buildArgumentList`. -/
def ctorModifiers : List Str := ["ref".data, "out".data, "in".data, "this".data]

/-- The per-part body of the `for (const part of parts)` loop of
`buildArgumentList`; `none` models `continue`. -/
def argOfPart (part : Str) : Option Str :=
  let beforeEq := trimWs (beforeChar '=' part)
  if beforeEq = [] then none
  else
    let toks := wsTokens beforeEq
    match toks.getLast? with
    | none => none
    | some nm =>
      let mods := toks.filter (fun t => decide (t ∈ ctorModifiers))
      if nm = [] then none
      else some ((if mods = [] then [] else joinSep (" ".data) mods ++ (" ".data)) ++ nm)

/-- `buildArgumentList` of src/unnamed/part_002 lines 264–297. -/
def buildArgumentList (parameterList : Str) : Str :=
  if trimWs parameterList = [] then []
  else
    joinSep (", ".data) ((splitOnChar ',' parameterList).filterMap argOfPart)

/-! Structured model of a well-formed constructor parameter, used to state
what forwarding does on parameter-list texts whose commas separate
parameters and whose tokens are ordinary C# tokens. -/

/-- One constructor parameter: modifier tokens, type tokens, the trailing
identifier (the parameter name) and an optional default-value text. -/
structure CtorParam where
  mods : List Str
  tyToks : List Str
  pname : Str
  dflt : Option Str
deriving DecidableEq

/-- Render one parameter back to source text: all tokens separated by
single spaces, the default (if any) introduced by `" = "`. -/
def renderParam (p : CtorParam) : Str :=
  joinSep (" ".data) (p.mods ++ p.tyToks ++ [p.pname]) ++
    (match p.dflt with
     | none => []
     | some d => " = ".data ++ d)

/-- Render a parameter list: parameters separated by `", "`. -/
def renderParams (ps : List CtorParam) : Str :=
  joinSep (", ".data) (ps.map renderParam)

/-- A token is non-empty and contains no whitespace, `,` or `=`. -/
def tokenOk (t : Str) : Prop :=
  t ≠ [] ∧ ∀ c ∈ t, isWs c = false ∧ c ≠ ',' ∧ c ≠ '='

/-- Well-formedness of a structured parameter: modifiers are modifier
tokens, type tokens and the name are ordinary tokens that are not
modifiers, and the default text contains no comma. -/
def ctorParamOk (p : CtorParam) : Prop :=
  (∀ t ∈ p.mods, tokenOk t ∧ t ∈ ctorModifiers) ∧
  (∀ t ∈ p.tyToks, tokenOk t ∧ t ∉ ctorModifiers) ∧
  tokenOk p.pname ∧ p.pname ∉ ctorModifiers ∧
  (∀ c ∈ p.dflt.getD [], c ≠ ',')

/-- The argument the specification expects for one parameter: its
modifiers (in order), then its bare name; no type, no default. -/
def expectedArg (p : CtorParam) : Str :=
  (if p.mods = [] then [] else joinSep (" ".data) p.mods ++ (" ".data)) ++ p.pname

instance (t : Str) : Decidable (tokenOk t) := by
  unfold tokenOk
  infer_instance

instance (p : CtorParam) : Decidable (ctorParamOk p) := by
  unfold ctorParamOk
  infer_instance

/-- A concrete well-formed parameter list used to exercise the forwarding
theorem: `ref int x = 5, string name`. -/
def sampleCtorParams : List CtorParam :=
  [⟨["ref".data], ["int".data], "x".data, some ("5".data)⟩,
   ⟨[], ["string".data], "name".data, none⟩]


/-! ### Derived-class synthesis — data model (src/unnamed/part_002 lines 10–33,
identical in part_001 lines 150–173) -/

/-- `ConstructorInfo`: `accessibility` is absent when the regex group did
not match. -/
structure ConstructorInfo where
  accessibility : Option Str
  parameters : Str
  argumentList : Str
deriving DecidableEq

structure AbstractMethodInfo where
  accessibility : Str
  returnType : Str
  name : Str
  fullTypeParameterText : Str
  typeParameters : List Str
  parameters : Str
  constraints : Str
deriving DecidableEq

structure AbstractPropertyInfo where
  accessibility : Str
  type : Str
  name : Str
  hasGetter : Bool
  hasSetter : Bool
  hasInit : Bool
deriving DecidableEq

/-- `<T1, T2, ...>` when the base class has type parameters (part_002
lines 72–73, part_001 lines 206–207). -/
def genericSuffix (typeParameters : List Str) : Str :=
  if typeParameters.length > 0 then
    ('<' :: joinSep (", ".data) typeParameters) ++ ['>']
  else []

/-! `createDerivedClassFile` mode (src/unnamed/part_002): a new sibling
file is written. -/

namespace CreateFileMode

/-- JS `ctor.accessibility || "public"`: `undefined` and the empty string
both fall back to `public`. -/
def accOrPublic (c : ConstructorInfo) : Str :=
  match c.accessibility with
  | some a => if a = [] then "public".data else a
  | none => "public".data

/-- The text appended for one constructor by the loop at part_002 lines
445–453. -/
def ctorSegment (indent newName nl : Str) (c : ConstructorInfo) : Str :=
  indent ++ indent ++ accOrPublic c ++ (" ".data) ++ newName ++ ("(".data) ++ c.parameters
    ++ (") : base(".data) ++ c.argumentList ++ (")".data) ++ nl
  ++ indent ++ indent ++ ("\x7b".data) ++ nl
  ++ indent ++ indent ++ ("\x7d".data) ++ nl ++ nl

/-- The text appended for one abstract method by the loop at part_002
lines 461–470. -/
def methodSegment (indent nl : Str) (m : AbstractMethodInfo) : Str :=
  indent ++ indent ++ m.accessibility ++ (" override ".data) ++ m.returnType ++ (" ".data)
    ++ m.name ++ m.fullTypeParameterText ++ ("(".data) ++ m.parameters ++ (")".data)
  ++ (if m.constraints = [] then [] else (" ".data) ++ m.constraints)
  ++ nl
  ++ indent ++ indent ++ ("\x7b".data) ++ nl
  ++ indent ++ indent ++ indent ++ ("throw new System.NotImplementedException();".data) ++ nl
  ++ indent ++ indent ++ ("\x7d".data) ++ nl ++ nl

/-- The text appended for one abstract property by the loop at part_002
lines 478–492. -/
def propSegment (indent nl : Str) (p : AbstractPropertyInfo) : Str :=
  indent ++ indent ++ p.accessibility ++ (" override ".data) ++ p.type ++ (" ".data) ++ p.name
    ++ (" \x7b".data)
  ++ (if p.hasGetter then (" get;".data) else [])
  ++ (if p.hasSetter then (" set;".data) else [])
  ++ (if p.hasInit then (" init;".data) else [])
  ++ (" \x7d".data) ++ nl

/-- `generateClassBody` of src/unnamed/part_002 lines 431–496.  The JS
function appends to `body` in sequence; each `if` block contributes
exactly one section string, so the result is the concatenation of the
marker line and the three sections (with the leading blank line each
section conditionally emits). -/
def generateClassBody (indent newName : Str) (constructors : List ConstructorInfo)
    (abstractMethods : List AbstractMethodInfo)
    (abstractProperties : List AbstractPropertyInfo) (nl : Str) : Str :=
  (indent ++ indent ++ ("// TODO: implement".data) ++ nl)
  ++ (if constructors.length > 0 then
        nl ++ (constructors.map (ctorSegment indent newName nl)).flatten
      else [])
  ++ (if abstractMethods.length > 0 then
        (if constructors.length = 0 then nl else []) ++
          (abstractMethods.map (methodSegment indent nl)).flatten
      else [])
  ++ (if abstractProperties.length > 0 then
        (if constructors.length = 0 ∧ abstractMethods.length = 0 then nl else []) ++
          (abstractProperties.map (propSegment indent nl)).flatten
      else [])

/-- The file content assembled by `createDerivedClassFile` (part_002
lines 79–106).  The namespace (from `detectNamespace`) and line ending
(from `getEOL`) are external inputs; the indent is the literal four
spaces of line 70. -/
def createDerivedClassFileContent (namespaceOpt : Option Str) (nl : Str)
    (baseName newName : Str) (typeParameters : List Str)
    (constructors : List ConstructorInfo) (abstractMethods : List AbstractMethodInfo)
    (abstractProperties : List AbstractPropertyInfo) : Str :=
  let indent : Str := "    ".data
  let suffix := genericSuffix typeParameters
  match namespaceOpt with
  | some ns =>
      ("namespace ".data) ++ ns ++ nl ++ ("\x7b".data) ++ nl
      ++ indent ++ ("public class ".data) ++ newName ++ (" : ".data) ++ baseName ++ suffix ++ nl
      ++ indent ++ ("\x7b".data) ++ nl
      ++ generateClassBody indent newName constructors abstractMethods abstractProperties nl
      ++ indent ++ ("\x7d".data) ++ nl
      ++ ("\x7d".data) ++ nl
  | none =>
      ("public class ".data) ++ newName ++ (" : ".data) ++ baseName ++ suffix ++ nl
      ++ ("\x7b".data) ++ nl
      ++ generateClassBody indent newName constructors abstractMethods abstractProperties nl
      ++ ("\x7d".data) ++ nl

end CreateFileMode

/-! `createDerivedClass` mode (src/unnamed/part_001): the derived class
is inserted below the base class in the same document. -/

namespace InsertMode

/-- Constructor text of part_001 lines 605–613. -/
def ctorSegment (classIndent newName nl : Str) (c : ConstructorInfo) : Str :=
  classIndent ++ CreateFileMode.accOrPublic c ++ (" ".data) ++ newName ++ ("(".data)
    ++ c.parameters ++ (") : base(".data) ++ c.argumentList ++ (")".data) ++ nl
  ++ classIndent ++ ("\x7b".data) ++ nl
  ++ classIndent ++ ("\x7d".data) ++ nl ++ nl

/-- Abstract-method text of part_001 lines 621–630. -/
def methodSegment (classIndent innerIndent nl : Str) (m : AbstractMethodInfo) : Str :=
  classIndent ++ m.accessibility ++ (" override ".data) ++ m.returnType ++ (" ".data)
    ++ m.name ++ m.fullTypeParameterText ++ ("(".data) ++ m.parameters ++ (")".data)
  ++ (if m.constraints = [] then [] else (" ".data) ++ m.constraints)
  ++ nl
  ++ classIndent ++ ("\x7b".data) ++ nl
  ++ innerIndent ++ ("throw new System.NotImplementedException();".data) ++ nl
  ++ classIndent ++ ("\x7d".data) ++ nl ++ nl

/-- Abstract-property text of part_001 lines 638–652. -/
def propSegment (classIndent nl : Str) (p : AbstractPropertyInfo) : Str :=
  classIndent ++ p.accessibility ++ (" override ".data) ++ p.type ++ (" ".data) ++ p.name
    ++ (" \x7b".data)
  ++ (if p.hasGetter then (" get;".data) else [])
  ++ (if p.hasSetter then (" set;".data) else [])
  ++ (if p.hasInit then (" init;".data) else [])
  ++ (" \x7d".data) ++ nl

/-- `generateClassBody` of src/unnamed/part_001 lines 587–656 (sequential
appends written as section concatenation, as for the other mode). -/
def generateClassBody (indentUnit baseIndent newName : Str)
    (constructors : List ConstructorInfo) (abstractMethods : List AbstractMethodInfo)
    (abstractProperties : List AbstractPropertyInfo) (nl : Str) : Str :=
  let classIndent := baseIndent ++ indentUnit
  let innerIndent := classIndent ++ indentUnit
  (classIndent ++ ("// TODO: implement".data) ++ nl)
  ++ (if constructors.length > 0 then
        nl ++ (constructors.map (ctorSegment classIndent newName nl)).flatten
      else [])
  ++ (if abstractMethods.length > 0 then
        (if constructors.length = 0 then nl else []) ++
          (abstractMethods.map (methodSegment classIndent innerIndent nl)).flatten
      else [])
  ++ (if abstractProperties.length > 0 then
        (if constructors.length = 0 ∧ abstractMethods.length = 0 then nl else []) ++
          (abstractProperties.map (propSegment classIndent nl)).flatten
      else [])

/-- `buildDerivedClassText` of src/unnamed/part_001 lines 560–585. -/
def buildDerivedClassText (baseIndent indentUnit baseName newName baseGenericSuffix : Str)
    (constructors : List ConstructorInfo) (abstractMethods : List AbstractMethodInfo)
    (abstractProperties : List AbstractPropertyInfo) (nl : Str) : Str :=
  baseIndent ++ ("public class ".data) ++ newName ++ (" : ".data) ++ baseName
    ++ baseGenericSuffix ++ nl
  ++ baseIndent ++ ("\x7b".data) ++ nl
  ++ generateClassBody indentUnit baseIndent newName constructors abstractMethods
       abstractProperties nl
  ++ baseIndent ++ ("\x7d".data) ++ nl

end InsertMode


/-- Concrete extraction records used by witnesses. -/
def sampleMethodInfo : AbstractMethodInfo :=
  ⟨"public".data, "double".data, "Area".data, [], [], [], []⟩

def samplePropInfo : AbstractPropertyInfo :=
  ⟨"public".data, "int".data, "Count".data, true, true, false⟩

def sampleFlaglessProp : AbstractPropertyInfo :=
  ⟨"public".data, "int".data, "X".data, false, false, false⟩


/-! ### Regex scanners of src/unnamed/part_002: `detectConstructors`,
`extractClassBody`, `detectAbstractPropertiesInClass`.

The JS patterns are embedded as explicit scanners.  `exec` with the `g`
flag repeatedly finds the leftmost match from the current position and
continues after it; the scanners walk the text one position at a time
carrying the previous character (for `\b`).  The recursion is bounded by
a fuel argument set to `length + 1`, which a scan that always advances
never exhausts. -/

/-- Word-character test on the optional character adjacent to a position
(absent at the ends of the text). -/
def isWordOpt : Option Char → Bool
  | some c => isWordChar c
  | none => false

/-- JS `\b` between `prev` and the head of `s`. -/
def boundaryBefore (prev : Option Char) (s : Str) : Bool :=
  isWordOpt prev != isWordOpt s.head?

/-- Literal-prefix test. -/
def hasPre : Str → Str → Bool
  | [], _ => true
  | _ :: _, [] => false
  | a :: as, b :: bs => a == b && hasPre as bs

/-- Strip a literal prefix, returning the rest. -/
def stripPre (p s : Str) : Option Str :=
  if hasPre p s then some (s.drop p.length) else none

/-- The ordered alternatives of `(public|protected|internal|private)`. -/
def accKeywords : List Str :=
  ["public".data, "protected".data, "internal".data, "private".data]

/-- Continuation of the constructor pattern from the class name on:
`<name>\s*\(([^)]*)\)`.  Returns the raw parameter text (up to the first
`)`) and the rest of the text after the match. -/
def ctorTailName (nm s1 : Str) : Option (Str × Str) :=
  match stripPre nm s1 with
  | none => none
  | some r =>
    let r2 := r.dropWhile isWs
    match r2 with
    | '(' :: r3 =>
      let raw := r3.takeWhile (fun c => c != ')')
      match r3.drop raw.length with
      | ')' :: r4 => some (raw, r4)
      | _ => none
    | _ => none

/-- After the optional accessibility group:
`\s*(?:unsafe\s+)?<name>\s*\(([^)]*)\)`.  The optional group is tried
first, falling back to the bare name, as the JS engine does. -/
def ctorAfterAcc (nm s1 : Str) : Option (Str × Str) :=
  let s2 := s1.dropWhile isWs
  let withU : Option (Str × Str) :=
    match stripPre ("unsafe".data) s2 with
    | some r =>
      if (r.takeWhile isWs) = [] then none
      else ctorTailName nm (r.dropWhile isWs)
    | none => none
  match withU with
  | some v => some v
  | none => ctorTailName nm s2

/-- One attempt of the full constructor pattern
`\b(public|protected|internal|private)?\s*(?:unsafe\s+)?<name>\s*\(([^)]*)\)`
at the current position: the accessibility alternatives in order, then
the group-skipped path. -/
def tryCtorAt (nm : Str) (prev : Option Char) (s : Str) :
    Option (Option Str × Str × Str) :=
  if boundaryBefore prev s then
    match accKeywords.findSome? (fun kw =>
      match stripPre kw s with
      | some r => (ctorAfterAcc nm r).map (fun v => (some kw, v.1, v.2))
      | none => none) with
    | some v => some v
    | none => (ctorAfterAcc nm s).map (fun v => ((none : Option Str), v.1, v.2))
  else none

/-- The `while ((match = ctorRegex.exec(text)) !== null)` loop of
`detectConstructors` (part_002 lines 245–259): entries with empty trimmed
parameter text are skipped (`continue`), the scan resumes after each
match (whose last character is always `)`). -/
def scanCtors (nm : Str) : Nat → Option Char → Str → List ConstructorInfo
  | 0, _, _ => []
  | _ + 1, _, [] => []
  | fuel + 1, prev, c :: rest =>
    match tryCtorAt nm prev (c :: rest) with
    | some (acc, raw, after) =>
      let params := trimWs raw
      let tail := scanCtors nm fuel (some ')') after
      if params = [] then tail
      else ⟨acc, params, buildArgumentList params⟩ :: tail
    | none => scanCtors nm fuel (some c) rest

/-- `detectConstructors` of part_002 lines 234–262: the pattern is run
over the *entire document text*, not over the class body. -/
def detectConstructors (text nm : Str) : List ConstructorInfo :=
  scanCtors nm (text.length + 1) none text

/-- One attempt of the class-header pattern `\bclass\s+<name>[^\{]*\{`. -/
def tryClassHeaderAt (nm : Str) (prev : Option Char) (s : Str) : Option Str :=
  if boundaryBefore prev s then
    match stripPre ("class".data) s with
    | none => none
    | some r =>
      if (r.takeWhile isWs) = [] then none
      else
        match stripPre nm (r.dropWhile isWs) with
        | none => none
        | some r2 =>
          let mid := r2.takeWhile (fun c => c != '{')
          match r2.drop mid.length with
          | '{' :: r3 => some r3
          | _ => none
  else none

/-- First match of the class-header pattern, returning the text just
after the opening brace. -/
def findClassHeader (nm : Str) : Nat → Option Char → Str → Option Str
  | 0, _, _ => none
  | _ + 1, _, [] => none
  | fuel + 1, prev, c :: rest =>
    match tryClassHeaderAt nm prev (c :: rest) with
    | some r => some r
    | none => findClassHeader nm fuel (some c) rest

/-- The brace-depth loop of `extractClassBody` (part_002 lines 327–342):
starting at depth 1 just inside the body, accumulate until the balancing
`}`; `none` when the text ends at positive depth. -/
def braceScan (depth : Nat) (acc : Str) : Str → Option Str
  | [] => none
  | c :: rest =>
    if c = '{' then braceScan (depth + 1) (acc ++ [c]) rest
    else if c = '}' then
      if depth = 1 then some acc else braceScan (depth - 1) (acc ++ [c]) rest
    else braceScan depth (acc ++ [c]) rest

/-- `extractClassBody` of part_002 lines 316–343. -/
def extractClassBody (text nm : Str) : Option Str :=
  match findClassHeader nm (text.length + 1) none text with
  | none => none
  | some afterBrace => braceScan 1 [] afterBrace

/-- The character class `[\w<>,\.\s]` of the abstract-member type
group. -/
def isTypeChar (c : Char) : Bool :=
  isWordChar c || c == '<' || c == '>' || c == ',' || c == '.' || isWs c

/-- `[A-Za-z_]`. -/
def isIdentStart (c : Char) : Bool := c.isAlpha || c == '_'

/-- JS `/get\s*;/.test(block)` and friends: some occurrence of the token
followed by optional whitespace and `;`.  The source patterns carry no
word boundary, so any occurrence counts. -/
def accessorTokenTest (pat blk : Str) : Bool :=
  (List.range (blk.length + 1)).any (fun i =>
    hasPre pat (blk.drop i) &&
      (match ((blk.drop i).drop pat.length).dropWhile isWs with
       | ';' :: _ => true
       | _ => false))

/-- After `<acc>\s+abstract\s+`: the greedy type group
`([A-Za-z_][\w<>,\.\s]*)` followed by `\s+([A-Za-z_]\w*)\s*\{([^}]*)\}`.
The JS engine takes the type group longest-first and backtracks until the
suffix matches; the candidates are tried in exactly that order.  Returns
(raw type text, property name, accessor block, rest). -/
def tryPropSuffix (s : Str) : Option (Str × Str × Str × Str) :=
  match s with
  | [] => none
  | c0 :: r0 =>
    if isIdentStart c0 then
      let run := c0 :: r0.takeWhile isTypeChar
      let afterRun := r0.drop (run.length - 1)
      (List.range run.length).findSome? (fun i =>
        let k := run.length - i
        let ty := run.take k
        let rem := run.drop k ++ afterRun
        let w1 := rem.takeWhile isWs
        if w1 = [] then none
        else
          let rem2 := rem.drop w1.length
          match rem2 with
          | d :: _ =>
            if isIdentStart d then
              let nmRun := rem2.takeWhile isWordChar
              let rem3 := (rem2.drop nmRun.length).dropWhile isWs
              match rem3 with
              | '{' :: r5 =>
                let blk := r5.takeWhile (fun c => c != '}')
                match r5.drop blk.length with
                | '}' :: r6 => some (ty, nmRun, blk, r6)
                | _ => none
              | _ => none
            else none
          | [] => none)
    else none

/-- One attempt of the abstract-property pattern
`\b(public|protected|internal|private)\s+abstract\s+([A-Za-z_][\w<>,\.\s]*)\s+([A-Za-z_]\w*)\s*\{([^}]*)\}`. -/
def tryPropAt (prev : Option Char) (s : Str) : Option (AbstractPropertyInfo × Str) :=
  if boundaryBefore prev s then
    accKeywords.findSome? (fun kw =>
      match stripPre kw s with
      | none => none
      | some r =>
        if (r.takeWhile isWs) = [] then none
        else
          match stripPre ("abstract".data) (r.dropWhile isWs) with
          | none => none
          | some r2 =>
            if (r2.takeWhile isWs) = [] then none
            else
              match tryPropSuffix (r2.dropWhile isWs) with
              | none => none
              | some (ty, nm2, blk, rest) =>
                some (⟨kw, trimWs ty, nm2,
                  accessorTokenTest ("get".data) blk,
                  accessorTokenTest ("set".data) blk,
                  accessorTokenTest ("init".data) blk⟩, rest))
  else none

/-- The `while` loop of `detectAbstractPropertiesInClass` (part_002
lines 407–426); every match ends in `}`. -/
def scanProps : Nat → Option Char → Str → List AbstractPropertyInfo
  | 0, _, _ => []
  | _ + 1, _, [] => []
  | fuel + 1, prev, c :: rest =>
    match tryPropAt prev (c :: rest) with
    | some (info, after) => info :: scanProps fuel (some '}') after
    | none => scanProps fuel (some c) rest

/-- `detectAbstractPropertiesInClass` of part_002 lines 394–429.  The JS
guard `if (!body) return []` also treats an *empty* body string as
absent. -/
def detectAbstractPropertiesInClass (text nm : Str) : List AbstractPropertyInfo :=
  match extractClassBody text nm with
  | none => []
  | some body => if body = [] then [] else scanProps (body.length + 1) none body

/-- Document for the C5 counterexample: an empty class `Shape` followed
by an object-creation expression `new Shape(5);` outside the class body. -/
def ceCtorDoc : Str := "class Shape \x7b \x7d\nnew Shape(5);".data

/-- Document for the C6 counterexample: an abstract property with an
empty accessor block. -/
def cePropDoc : Str := "class B \x7b public abstract int X \x7b \x7d \x7d".data


/-! ### Interface extraction (src/unnamed/part_003): duplicate guard and
member-line synthesis -/

/-- `PropertyExtractionInfo` of part_003 lines 18–24. -/
structure PropertyExtractionInfo where
  name : Str
  type : Str
  hasGetter : Bool
  hasSetter : Bool
  hasInit : Bool
  enclosingClassName : Option Str
  startOffset : Nat
  requiredTypeParameters : List Str
deriving DecidableEq

/-- `MethodExtractionInfo` of part_003 lines 26–35; the accessibility
range is a pair of document positions. -/
structure MethodExtractionInfo where
  name : Str
  returnType : Str
  parameters : Str
  fullTypeParameterText : Str
  typeParameters : List Str
  constraints : Option Str
  accessibility : Option Str
  accessibilityRange : Option ((Nat × Nat) × (Nat × Nat))
  enclosingClassName : Option Str
  startOffset : Nat
  requiredTypeParameters : List Str
deriving DecidableEq

/-- `ExtractedMember` of part_003 lines 37–39. -/
inductive ExtractedMember
  | property (p : PropertyExtractionInfo)
  | method (m : MethodExtractionInfo)
deriving DecidableEq

def memberName : ExtractedMember → Str
  | .property p => p.name
  | .method m => m.name

/-- `InterfaceDeclarationInfo` of part_003 lines 47–52 (the insert
position — immediately before the closing brace, i.e. the end of
`bodyText` — is implicit in this model). -/
structure InterfaceDeclarationInfo where
  name : Str
  bodyText : Str
  memberIndent : Str
deriving DecidableEq

/-- JS `\b` at position `i` of `body` (between `body[i-1]` and
`body[i]`). -/
def boundaryAt (body : Str) (i : Nat) : Bool :=
  isWordOpt (if i = 0 then none else body[i-1]?) != isWordOpt body[i]?

/-- `new RegExp(\`\\b${name}\\b\\s*\\{\`).test(body)` of
`isMemberDeclaredInInterfaces` for properties (part_003 lines 133–135);
the member name is interpolated into the pattern literally. -/
def propNamePatternTest (nm body : Str) : Bool :=
  (List.range (body.length + 1)).any (fun i =>
    boundaryAt body i && hasPre nm (body.drop i) && boundaryAt body (i + nm.length) &&
      (match (body.drop (i + nm.length)).dropWhile isWs with
       | '{' :: _ => true
       | _ => false))

/-- `\b${name}\b\s*(<[^>]+>)?\s*\(` for methods (part_003 lines
138–139); after skipping whitespace the engine first tries the generic
parameter group (at least one non-`>` character up to the next `>`),
falling back to a direct `(`. -/
def methodNamePatternTest (nm body : Str) : Bool :=
  (List.range (body.length + 1)).any (fun i =>
    boundaryAt body i && hasPre nm (body.drop i) && boundaryAt body (i + nm.length) &&
      (match (body.drop (i + nm.length)).dropWhile isWs with
       | '(' :: _ => true
       | '<' :: r2 =>
         let inner := r2.takeWhile (fun c => c != '>')
         decide (inner ≠ []) &&
           (match r2.drop inner.length with
            | '>' :: r3 =>
              (match r3.dropWhile isWs with
               | '(' :: _ => true
               | _ => false)
            | _ => false)
       | _ => false))

/-- `isMemberDeclaredInInterfaces` of part_003 lines 125–140. -/
def isMemberDeclaredInInterfaces (member : ExtractedMember)
    (interfaces : List InterfaceDeclarationInfo) : Bool :=
  if interfaces = [] then false
  else
    match member with
    | .property p => interfaces.any (fun i => propNamePatternTest p.name i.bodyText)
    | .method m => interfaces.any (fun i => methodNamePatternTest m.name i.bodyText)

/-- `buildInterfaceMemberLine` of part_003 lines 707–733. -/
def buildInterfaceMemberLine (member : ExtractedMember) (indent eol : Str) : Str :=
  match member with
  | .property p =>
    indent ++ p.type ++ (" ".data) ++ p.name ++ (" \x7b".data)
    ++ (if p.hasGetter then (" get;".data) else [])
    ++ (if p.hasSetter then (" set;".data) else [])
    ++ (if p.hasInit then (" init;".data) else [])
    ++ (" \x7d".data) ++ eol
  | .method m =>
    indent ++ m.returnType ++ (" ".data) ++ m.name ++ m.fullTypeParameterText
    ++ ("(".data) ++ m.parameters ++ (")".data)
    ++ (match m.constraints with
        | some c => if c.length > 0 then (" ".data) ++ c else []
        | none => [])
    ++ (";".data) ++ eol

/-- The edit-construction core of `addMemberToExistingInterface`
(part_003 lines 156–177): `none` models the duplicate guard's
success-no-op path (no edit is built, the interface body is untouched);
`some t` is the text inserted immediately before the interface's closing
brace, i.e. appended to `target.bodyText`.  `needsLeadingEol` stands for
the external check of the characters preceding the insert position. -/
def addMemberToExistingInterface (target : InterfaceDeclarationInfo)
    (member : ExtractedMember) (eol : Str) (needsLeadingEol : Bool) : Option Str :=
  if isMemberDeclaredInInterfaces member [target] then none
  else some ((if needsLeadingEol then eol else []) ++
    buildInterfaceMemberLine member target.memberIndent eol)

/-- Concrete members used by the C4 witness: `void Bar()` and
`int Count { get; set; }`. -/
def sampleIfaceMethod : ExtractedMember :=
  .method ⟨"Bar".data, "void".data, [], [], [], none, some ("public".data), none,
    none, 0, []⟩

def sampleIfaceProp : ExtractedMember :=
  .property ⟨"Count".data, "int".data, true, true, false, none, 0, []⟩


/-! ### Symbol-resolution adapter (src/unnamed/part_004): the
document-symbol cache -/

/-- The module-level `documentSymbolCache`: document key (URI string) to
(version, symbols).  The symbol type is left abstract. -/
abbrev SymCache (σ : Type) := List (Str × Nat × List σ)

def cacheGet {σ : Type} (cache : SymCache σ) (key : Str) : Option (Nat × List σ) :=
  (cache.find? (fun e => decide (e.1 = key))).map (fun e => e.2)

/-- JS `Map.set` (keyed update; insertion order is irrelevant to every
lookup). -/
def cacheSet {σ : Type} (cache : SymCache σ) (key : Str) (v : Nat × List σ) : SymCache σ :=
  (key, v) :: cache.filter (fun e => decide (e.1 ≠ key))

/-- JS `Map.delete`. -/
def cacheDel {σ : Type} (cache : SymCache σ) (key : Str) : SymCache σ :=
  cache.filter (fun e => decide (e.1 ≠ key))

/-- Does the cache hold an entry for `key` at exactly `version`? -/
def cacheHit {σ : Type} (cache : SymCache σ) (key : Str) (version : Nat) : Bool :=
  match cacheGet cache key with
  | some (v, _) => v == version
  | none => false

/-- `getDocumentSymbols` of src/unnamed/part_004 lines 10–33 as a pure
state transformer.  `provider` models the external
`executeDocumentSymbolProvider` call: it may throw (`Except.error`),
return no array (`Except.ok none`, JS `undefined`), or return an array
(`Except.ok (some syms)`).  NOTE: the JS guard is `if (symbols)`, and an
*empty* array is truthy in JS, so an empty provider result is cached and
returned like any other array; eviction happens only on `undefined` or a
thrown exception. -/
def getDocumentSymbols {σ : Type} (cache : SymCache σ) (key : Str) (version : Nat)
    (provider : Except Unit (Option (List σ))) : List σ × SymCache σ :=
  match cacheGet cache key with
  | some (v, syms) =>
    if v = version then (syms, cache)
    else
      match provider with
      | .ok (some syms2) => (syms2, cacheSet cache key (version, syms2))
      | _ => ([], cacheDel cache key)
  | none =>
    match provider with
    | .ok (some syms2) => (syms2, cacheSet cache key (version, syms2))
    | _ => ([], cacheDel cache key)

/-- `getDocumentSymbols` of src/src/features/classMembers.ts lines
537–567.  Unlike the part_004 variant, a same-version hit is served from
the cache only when the cached array holds more than one symbol; with 0
or 1 cached symbols the provider is re-invoked ("attempting refresh"):
a returned array — empty included, `if (symbols)` again — overwrites the
entry at the current version, while a throw or missing array deletes the
entry and yields the empty tree, all without any version change. -/
def getDocumentSymbolsCM {σ : Type} (cache : SymCache σ) (key : Str) (version : Nat)
    (provider : Except Unit (Option (List σ))) : List σ × SymCache σ :=
  match cacheGet cache key with
  | some (v, syms) =>
    if v = version ∧ syms.length > 1 then (syms, cache)
    else
      match provider with
      | .ok (some syms2) => (syms2, cacheSet cache key (version, syms2))
      | _ => ([], cacheDel cache key)
  | none =>
    match provider with
    | .ok (some syms2) => (syms2, cacheSet cache key (version, syms2))
    | _ => ([], cacheDel cache key)


/-! ### Move-to-base (src/src/features/moveToBase.ts): accessibility
promotion and member-text preparation -/

/-- Greedy candidates for `\s*` at `s`: (consumed, rest) pairs, longest
first, exactly the order in which the JS engine backtracks. -/
def wsSplits (s : Str) : List (Str × Str) :=
  (List.range ((s.takeWhile isWs).length + 1)).map (fun i =>
    (s.take ((s.takeWhile isWs).length - i), s.drop ((s.takeWhile isWs).length - i)))

/-- Greedy candidates for `.*` (any character except line terminators),
longest first. -/
def dotSplits (s : Str) : List (Str × Str) :=
  let w := s.takeWhile (fun c => c != '\n' && c != '\r')
  (List.range (w.length + 1)).map (fun i =>
    (s.take (w.length - i), s.drop (w.length - i)))

/-- `\[[^\]]*\]`: one attribute; deterministic, since the inner class
cannot cross the first `]`. -/
def attrSplit (s : Str) : Option (Str × Str) :=
  match s with
  | '[' :: r =>
    let inner := r.takeWhile (fun c => c != ']')
    match r.drop inner.length with
    | ']' :: rest => some ('[' :: (inner ++ [']']), rest)
    | _ => none
  | _ => none

/-- The star loop `(?:(?:\[[^\]]*\]|\/\/\/.*)\s*)*` followed by
`(private)(\s+)` of the `promotePrivateToProtected` pattern
(moveToBase.ts line 345), with the JS engine's ordered backtracking:
iterate first (attribute alternative, then doc-comment with `.*`
longest-first, each followed by `\s*` longest-first), then exit the star
and require `private` plus at least one whitespace character (taken
greedily — nothing follows it in the pattern).  Returns (group-1 text
consumed from `g1` on, the `\s+` capture, the rest of the text). -/
def promStarLoop : Nat → Str → Str → Option (Str × Str × Str)
  | 0, _, _ => none
  | fuel + 1, g1, s =>
    let exitStar : Option (Str × Str × Str) :=
      match stripPre ("private".data) s with
      | some r =>
        let w := r.takeWhile isWs
        if w = [] then none else some (g1, w, r.drop w.length)
      | none => none
    let iterAttr : Option (Str × Str × Str) :=
      match attrSplit s with
      | some a =>
        (wsSplits a.2).findSome? (fun q => promStarLoop fuel (g1 ++ a.1 ++ q.1) q.2)
      | none => none
    let iterDoc : Option (Str × Str × Str) :=
      match stripPre ("///".data) s with
      | some r0 =>
        (dotSplits r0).findSome? (fun d =>
          (wsSplits d.2).findSome? (fun q =>
            promStarLoop fuel (g1 ++ ("///".data) ++ d.1 ++ q.1) q.2))
      | none => none
    match iterAttr with
    | some v => some v
    | none =>
      match iterDoc with
      | some v => some v
      | none => exitStar

/-- The anchored match of
`/^(\s*(?:(?:\[[^\]]*\]|\/\/\/.*)\s*)*)(private)(\s+)/`: initial
`\s*` longest-first, then the star loop.  Returns (group 1, the `\s+`
capture, the rest). -/
def promMatch (text : Str) : Option (Str × Str × Str) :=
  (wsSplits text).findSome? (fun q =>
    (promStarLoop (text.length + 1) [] q.2).map (fun v =>
      (q.1 ++ v.1, v.2.1, v.2.2)))

/-- `promotePrivateToProtected` of moveToBase.ts lines 344–352: the
matched `private` is replaced by `protected`; prefix, whitespace capture
and remainder are kept. -/
def promotePrivateToProtected (text : Str) : Str :=
  match promMatch text with
  | none => text
  | some (g1, w, rest) => g1 ++ ("protected".data) ++ w ++ rest

/-- JS `text.replace(/\s+$/, "")`. -/
def trimEndJs (s : Str) : Str := (s.reverse.dropWhile isWs).reverse

/-- JS `split(/\r?\n/)`. -/
def splitLines : Str → List Str
  | [] => [[]]
  | '\r' :: '\n' :: rest => [] :: splitLines rest
  | '\n' :: rest => [] :: splitLines rest
  | c :: rest =>
    match splitLines rest with
    | [] => [[c]]
    | t :: ts => (c :: t) :: ts

/-- `prepareMemberTextForInsertion` of moveToBase.ts lines 338–342: trim
trailing whitespace, promote a leading `private`, re-join the lines with
the document's end-of-line string. -/
def prepareMemberTextForInsertion (text eol : Str) : Str :=
  joinSep eol (splitLines (promotePrivateToProtected (trimEndJs text)))

/-- `ensureMethodAccessibility` of src/unnamed/part_003 lines 756–771, as
the edit it produces: `none` models the early return (no edit), `some
(range, "public")` the single replace edit on the accessibility token. -/
def ensureMethodAccessibility (member : ExtractedMember) :
    Option (((Nat × Nat) × (Nat × Nat)) × Str) :=
  match member with
  | .property _ => none
  | .method m =>
    match m.accessibility, m.accessibilityRange with
    | some a, some rg =>
      if a = "private".data then some (rg, "public".data) else none
    | _, _ => none

/-- C7 counterexample input: a member whose leading doc comment contains
the word `private`, but which itself has no accessibility modifier. -/
def cePromoteDoc : Str := "/// private\nint X;".data


/-! ### Move-to-base dependency closure
(`collectMembersWithDependencies`, moveToBase.ts lines 275–322) -/

/-- The fields of `MovableClassMemberInfo` read by the dependency
closure: name, verbatim text, and the range start (line, character) that
`memberKey` uses as identity.  (Range end, kind, order and the symbol
reference play no role in the closure.) -/
structure MovableClassMemberInfo where
  name : Str
  text : Str
  line : Nat
  col : Nat
deriving DecidableEq

/-- `memberKey` of moveToBase.ts lines 312–314. -/
def memberKey (m : MovableClassMemberInfo) : Nat × Nat := (m.line, m.col)

/-- `usesMemberName` of moveToBase.ts lines 316–322: the member name
(regex-escaped, hence a literal) as a whole-word `\b`-delimited token
somewhere in the text; the empty name never matches. -/
def usesMemberName (text nm : Str) : Bool :=
  !nm.isEmpty &&
    (List.range (text.length + 1)).any (fun i =>
      boundaryAt text i && hasPre nm (text.drop i) && boundaryAt text (i + nm.length))

/-- One candidate pass of the `for (const candidate of allMembers)` loop
(moveToBase.ts lines 294–306), folded over the state (stack, queuedKeys):
skip the current member itself, skip seen or queued keys, push a
candidate whose name occurs in the current member's text (the push
conses, so the last pushed candidate is popped first, as with the JS
array used as a stack). -/
def collectStep (root : MovableClassMemberInfo) (all : List MovableClassMemberInfo)
    (current : MovableClassMemberInfo) (seen2 : Finset (Nat × Nat))
    (sq : List {m : MovableClassMemberInfo // m ∈ root :: all} × Finset (Nat × Nat))
    (c : {x : MovableClassMemberInfo // x ∈ all}) :
    List {m : MovableClassMemberInfo // m ∈ root :: all} × Finset (Nat × Nat) :=
  if c.val = current then sq
  else if memberKey c.val ∈ seen2 ∨ memberKey c.val ∈ sq.2 then sq
  else if usesMemberName current.text c.val.name then
    (⟨c.val, List.mem_cons_of_mem root c.prop⟩ :: sq.1, insert (memberKey c.val) sq.2)
  else sq

/-- The worklist loop of `collectMembersWithDependencies` (moveToBase.ts
lines 284–307).  `stack` is the JS array with its head as top; `seen` and
`queued` are the key sets; `result` accumulates in processing order.
Stack elements carry membership in `root :: all`, which bounds the
recursion: every processed unseen key is a key of `root :: all`. -/
def collectLoop (root : MovableClassMemberInfo) (all : List MovableClassMemberInfo)
    (stack : List {m : MovableClassMemberInfo // m ∈ root :: all})
    (seen queued : Finset (Nat × Nat))
    (result : List MovableClassMemberInfo) : List MovableClassMemberInfo :=
  match stack with
  | [] => result
  | current :: rest =>
    if memberKey current.val ∈ seen then
      collectLoop root all rest seen queued result
    else
      let seen2 := insert (memberKey current.val) seen
      let step := all.attach.foldl (collectStep root all current.val seen2) (rest, queued)
      collectLoop root all step.1 seen2 step.2 (result ++ [current.val])
termination_by
  ((((root :: all).map memberKey).toFinset \ seen).card) * (all.length + 1) + stack.length
decreasing_by
  · simp only [List.length_cons]
    omega
  · have hlen : ∀ (s2 : Finset (Nat × Nat)) (l : List {x : MovableClassMemberInfo // x ∈ all})
        (sq : List {m : MovableClassMemberInfo // m ∈ root :: all} × Finset (Nat × Nat)),
        (l.foldl (collectStep root all current.val s2) sq).1.length ≤
          sq.1.length + l.length := by
      intro s2 l
      induction l with
      | nil => intro sq; simp
      | cons c cs ih =>
        intro sq
        have hstep : (collectStep root all current.val s2 sq c).1.length ≤
            sq.1.length + 1 := by
          unfold collectStep
          split
          · omega
          · split
            · omega
            · split
              · simp
              · omega
        have hfold : ((c :: cs).foldl (collectStep root all current.val s2) sq).1.length
            = (cs.foldl (collectStep root all current.val s2)
                (collectStep root all current.val s2 sq c)).1.length := by
          rw [List.foldl_cons]
        have hih := ih (collectStep root all current.val s2 sq c)
        simp only [List.length_cons]
        omega
    have hkey : memberKey current.val ∈ ((root :: all).map memberKey).toFinset := by
      rw [List.mem_toFinset]
      exact List.mem_map_of_mem memberKey current.prop
    have hcard : ((((root :: all).map memberKey).toFinset \
          insert (memberKey current.val) seen).card) <
        ((((root :: all).map memberKey).toFinset \ seen).card) := by
      apply Finset.card_lt_card
      constructor
      · intro x hx
        rw [Finset.mem_sdiff] at hx ⊢
        refine ⟨hx.1, fun hxs => hx.2 (Finset.mem_insert_of_mem hxs)⟩
      · intro hsub
        have h2 : memberKey current.val ∈
            ((root :: all).map memberKey).toFinset \ seen := by
          rw [Finset.mem_sdiff]
          exact ⟨hkey, by assumption⟩
        have h3 := hsub h2
        rw [Finset.mem_sdiff] at h3
        exact h3.2 (Finset.mem_insert_self _ _)
    have hstep2 := hlen (insert (memberKey current.val) seen) all.attach (rest, queued)
    simp only [List.length_attach] at hstep2
    have hA : ((((root :: all).map memberKey).toFinset \
          insert (memberKey current.val) seen).card) + 1 ≤
        ((((root :: all).map memberKey).toFinset \ seen).card) := hcard
    have hmul : (((((root :: all).map memberKey).toFinset \
          insert (memberKey current.val) seen).card) + 1) *
        (all.length + 1) ≤
        ((((root :: all).map memberKey).toFinset \ seen).card) * (all.length + 1) :=
      Nat.mul_le_mul_right _ hA
    rw [Nat.succ_mul] at hmul
    simp only [List.length_cons]
    omega

/-- `collectMembersWithDependencies` of moveToBase.ts lines 275–310:
start from the triggering member with its key queued. -/
def collectMembersWithDependencies (root : MovableClassMemberInfo)
    (all : List MovableClassMemberInfo) : List MovableClassMemberInfo :=
  collectLoop root all [⟨root, List.mem_cons_self root all⟩] ∅ {memberKey root} []

/-- Concrete three-member chain for exercising the dependency closure:
the root's text mentions c3B's name, c3B's text mentions c3C's name. -/
def c3root : MovableClassMemberInfo := ⟨"a".data, "b".data, 0, 0⟩

def c3B : MovableClassMemberInfo := ⟨"b".data, "c".data, 1, 0⟩

def c3C : MovableClassMemberInfo := ⟨"c".data, "x".data, 2, 0⟩

-- ===================== THEOREMS =====================

theorem splitOnPred_ne_nil (p : Char → Bool) (s : Str) : splitOnPred p s ≠ [] := by
  match s with
  | [] => simp [splitOnPred]
  | c :: rest =>
    rw [splitOnPred]
    by_cases h : p c
    · simp [h]
    · simp only [h]
      cases hs : splitOnPred p rest <;> simp

theorem splitOnPred_cons_pos (p : Char → Bool) (c : Char) (s : Str) (h : p c = true) :
    splitOnPred p (c :: s) = [] :: splitOnPred p s := by
  rw [splitOnPred, if_pos h]

theorem splitOnPred_cons_neg (p : Char → Bool) (c : Char) (s : Str) (h : p c = false) :
    splitOnPred p (c :: s) =
      (c :: (splitOnPred p s).headI) :: (splitOnPred p s).tail := by
  rw [splitOnPred]
  simp only [h]
  cases hs : splitOnPred p s with
  | nil => exact absurd hs (splitOnPred_ne_nil p s)
  | cons t ts => simp [List.headI]

theorem splitOnPred_append_left (p : Char → Bool) (xs ys : Str)
    (h : ∀ c ∈ xs, p c = false) :
    splitOnPred p (xs ++ ys) =
      (xs ++ (splitOnPred p ys).headI) :: (splitOnPred p ys).tail := by
  induction xs with
  | nil =>
    simp only [List.nil_append]
    cases hs : splitOnPred p ys with
    | nil => exact absurd hs (splitOnPred_ne_nil p ys)
    | cons t ts => simp [List.headI]
  | cons c cs ih =>
    have hc : p c = false := h c (List.mem_cons_self c cs)
    have ih2 := ih (fun d hd => h d (List.mem_cons_of_mem c hd))
    rw [List.cons_append, splitOnPred_cons_neg p c (cs ++ ys) hc, ih2]
    simp [List.headI]

theorem splitOnPred_all_neg (p : Char → Bool) (xs : Str)
    (h : ∀ c ∈ xs, p c = false) :
    splitOnPred p xs = [xs] := by
  have := splitOnPred_append_left p xs [] h
  simpa [splitOnPred] using this

/-- Splitting an interspersion: if the separator string starts with a
character recognised by `p` followed by `p`-free padding, and no piece
contains a `p`-character, splitting recovers the pieces (later pieces
keeping the padding as prefix). -/
theorem splitOnPred_intercalate (p : Char → Bool) (c : Char) (sfx : Str)
    (hc : p c = true) (hsfx : ∀ x ∈ sfx, p x = false) :
    ∀ (a : Str) (parts : List Str),
      (∀ x ∈ a, p x = false) → (∀ b ∈ parts, ∀ x ∈ b, p x = false) →
      splitOnPred p (joinSep (c :: sfx) (a :: parts)) =
        a :: parts.map (fun b => sfx ++ b) := by
  intro a parts
  induction parts generalizing a with
  | nil =>
    intro ha _
    simp [joinSep, splitOnPred_all_neg p a ha]
  | cons b bs ih =>
    intro ha hparts
    have hb : ∀ x ∈ b, p x = false := hparts b (List.mem_cons_self b bs)
    have hbs : ∀ q ∈ bs, ∀ x ∈ q, p x = false :=
      fun q hq => hparts q (List.mem_cons_of_mem b hq)
    have key : joinSep (c :: sfx) (a :: b :: bs) =
        a ++ c :: (sfx ++ joinSep (c :: sfx) (b :: bs)) := by
      simp [joinSep]
    rw [key, splitOnPred_append_left p a _ ha, splitOnPred_cons_pos p c _ hc,
      splitOnPred_append_left p sfx _ hsfx, ih b hb hbs]
    simp [List.headI]

theorem dropWhile_ws_append (w s : Str) (hw : ∀ c ∈ w, isWs c = true) :
    (w ++ s).dropWhile isWs = s.dropWhile isWs := by
  induction w with
  | nil => simp
  | cons c cs ih =>
    have hc : isWs c = true := hw c (List.mem_cons_self c cs)
    have ih2 := ih (fun d hd => hw d (List.mem_cons_of_mem c hd))
    simp [List.dropWhile_cons, hc, ih2]

theorem trimWs_sandwich (pre post mid : Str)
    (hpre : ∀ c ∈ pre, isWs c = true) (hpost : ∀ c ∈ post, isWs c = true)
    (hh : ∃ hd tl, mid = hd :: tl ∧ isWs hd = false)
    (hl : ∃ fr lc, mid = fr ++ [lc] ∧ isWs lc = false) :
    trimWs (pre ++ mid ++ post) = mid := by
  obtain ⟨hd, tl, hmid, hhd⟩ := hh
  obtain ⟨fr, lc, hmid2, hlc⟩ := hl
  have step1 : (pre ++ mid ++ post).dropWhile isWs = mid ++ post := by
    rw [List.append_assoc, dropWhile_ws_append pre (mid ++ post) hpre, hmid]
    simp [List.dropWhile_cons, hhd]
  have step2 : (mid ++ post).reverse.dropWhile isWs = mid.reverse := by
    rw [List.reverse_append,
      dropWhile_ws_append post.reverse mid.reverse (fun c hc => hpost c (List.mem_reverse.mp hc))]
    rw [hmid2]
    simp [List.dropWhile_cons, hlc]
  unfold trimWs
  rw [step1, step2, List.reverse_reverse]

theorem trimWs_ne_nil_of_exists (s : Str) (c : Char) (hc : c ∈ s) (hw : isWs c = false) :
    trimWs s ≠ [] := by
  intro h
  unfold trimWs at h
  rw [List.reverse_eq_nil_iff, List.dropWhile_eq_nil_iff] at h
  have hall : ∀ x ∈ s.dropWhile isWs, isWs x = true := by
    intro x hx
    exact h x (List.mem_reverse.mpr hx)
  have hsplit := List.takeWhile_append_dropWhile isWs s
  rw [← hsplit] at hc
  rcases List.mem_append.mp hc with h1 | h2
  · exact absurd (List.mem_takeWhile_imp h1) (by simp [hw])
  · exact absurd (hall c h2) (by simp [hw])

theorem joinSep_cons_exists (sep t : Str) (ts : List Str) :
    ∃ r, joinSep sep (t :: ts) = t ++ r := by
  cases ts with
  | nil => exact ⟨[], by simp [joinSep]⟩
  | cons b bs => exact ⟨sep ++ joinSep sep (b :: bs), by simp [joinSep]⟩

theorem joinSep_concat_exists (sep t : Str) (ts : List Str) :
    ∃ r, joinSep sep (ts ++ [t]) = r ++ t := by
  induction ts with
  | nil => exact ⟨[], by simp [joinSep]⟩
  | cons a as ih =>
    obtain ⟨r, hr⟩ := ih
    cases has : as ++ [t] with
    | nil => simp at has
    | cons b bs =>
      refine ⟨a ++ sep ++ r, ?_⟩
      rw [List.cons_append, has, joinSep, ← has, hr]
      simp

theorem joinSep_comma_free (q : CtorParam) (hq : ctorParamOk q) :
    ∀ x ∈ renderParam q, (x == ',') = false := by
  obtain ⟨hmods, hty, hname, hnmem, hd⟩ := hq
  intro x hx
  simp only [beq_eq_false_iff_ne, ne_eq]
  intro hxc
  subst hxc
  unfold renderParam at hx
  rcases List.mem_append.mp hx with h1 | h2
  · -- inside the space-joined token list
    have htoks : ∀ t ∈ q.mods ++ q.tyToks ++ [q.pname], ∀ c ∈ t, c ≠ ',' := by
      intro t ht c hc
      rcases List.mem_append.mp ht with ht1 | ht2
      · rcases List.mem_append.mp ht1 with hm | hty2
        · exact ((hmods t hm).1.2 c hc).2.1
        · exact ((hty t hty2).1.2 c hc).2.1
      · have : t = q.pname := by simpa using ht2
        subst this
        exact (hname.2 c hc).2.1
    -- a character of the join is either in a token or in the separator
    revert h1
    generalize q.mods ++ q.tyToks ++ [q.pname] = ts at htoks
    induction ts with
    | nil => simp [joinSep]
    | cons t rest ih =>
      intro h1
      cases rest with
      | nil =>
        simp only [joinSep] at h1
        exact htoks t (List.mem_cons_self t []) ',' h1 rfl
      | cons b bs =>
        rw [joinSep] at h1
        rcases List.mem_append.mp h1 with h3 | h4
        · rcases List.mem_append.mp h3 with h5 | h6
          · exact htoks t (List.mem_cons_self t _) ',' h5 rfl
          · exact absurd h6 (by decide)
        · exact ih (fun u hu => htoks u (List.mem_cons_of_mem t hu)) h4
  · cases hdf : q.dflt with
    | none => rw [hdf] at h2; simp at h2
    | some d =>
      rw [hdf] at h2
      simp only [List.mem_append] at h2
      rcases h2 with h3 | h4
      · exact absurd h3 (by decide)
      · refine hd ',' ?_ rfl
        rw [hdf]
        simpa using h4

theorem takeWhile_all {α} (p : α → Bool) (xs : List α) (h : ∀ c ∈ xs, p c = true) :
    xs.takeWhile p = xs := by
  induction xs with
  | nil => simp
  | cons c cs ih =>
    simp [List.takeWhile_cons, h c (List.mem_cons_self c cs),
      ih (fun d hd => h d (List.mem_cons_of_mem c hd))]

theorem takeWhile_append_stop {α} (p : α → Bool) (xs ys : List α) (y : α)
    (hxs : ∀ c ∈ xs, p c = true) (hy : p y = false) :
    (xs ++ y :: ys).takeWhile p = xs := by
  induction xs with
  | nil => simp [List.takeWhile_cons, hy]
  | cons c cs ih =>
    simp [List.takeWhile_cons, hxs c (List.mem_cons_self c cs),
      ih (fun d hd => hxs d (List.mem_cons_of_mem c hd))]

theorem mem_joinSep (sep : Str) (ts : List Str) (x : Char) (hx : x ∈ joinSep sep ts) :
    (∃ t ∈ ts, x ∈ t) ∨ x ∈ sep := by
  induction ts with
  | nil => simp [joinSep] at hx
  | cons t rest ih =>
    cases rest with
    | nil =>
      simp only [joinSep] at hx
      exact Or.inl ⟨t, List.mem_cons_self t [], hx⟩
    | cons b bs =>
      rw [joinSep] at hx
      rcases List.mem_append.mp hx with h1 | h2
      · rcases List.mem_append.mp h1 with h3 | h4
        · exact Or.inl ⟨t, List.mem_cons_self t _, h3⟩
        · exact Or.inr h4
      · rcases ih h2 with ⟨u, hu, hxu⟩ | h5
        · exact Or.inl ⟨u, List.mem_cons_of_mem t hu, hxu⟩
        · exact Or.inr h5

theorem tokJoin_head (ts : List Str) (hne : ts ≠ [])
    (htok : ∀ t ∈ ts, t ≠ [] ∧ ∀ c ∈ t, isWs c = false) :
    ∃ hd tl, joinSep (" ".data) ts = hd :: tl ∧ isWs hd = false := by
  cases ts with
  | nil => exact absurd rfl hne
  | cons t rest =>
    obtain ⟨r, hr⟩ := joinSep_cons_exists (" ".data) t rest
    obtain ⟨htne, hchars⟩ := htok t (List.mem_cons_self t rest)
    cases t with
    | nil => exact absurd rfl htne
    | cons hd tl =>
      exact ⟨hd, tl ++ r, by simp [hr], hchars hd (List.mem_cons_self hd tl)⟩

theorem tokJoin_last (ts : List Str) (hne : ts ≠ [])
    (htok : ∀ t ∈ ts, t ≠ [] ∧ ∀ c ∈ t, isWs c = false) :
    ∃ fr lc, joinSep (" ".data) ts = fr ++ [lc] ∧ isWs lc = false := by
  rcases List.eq_nil_or_concat ts with h | ⟨L, t, hLt⟩
  · exact absurd h hne
  · subst hLt
    obtain ⟨r, hr⟩ := joinSep_concat_exists (" ".data) t L
    obtain ⟨htne, hchars⟩ := htok t (by simp [List.concat_eq_append])
    rcases List.eq_nil_or_concat t with h2 | ⟨fr2, lc, hfr⟩
    · exact absurd h2 htne
    · subst hfr
      refine ⟨r ++ fr2, lc, ?_, hchars lc (by simp [List.concat_eq_append])⟩
      simp only [List.concat_eq_append]
      simp only [List.concat_eq_append, show (" ".data : Str) = [' '] from rfl] at hr
      rw [hr]
      simp

theorem wsTokens_joinSep (ts : List Str) (hne : ts ≠ [])
    (htok : ∀ t ∈ ts, t ≠ [] ∧ ∀ c ∈ t, isWs c = false) :
    wsTokens (joinSep (" ".data) ts) = ts := by
  cases ts with
  | nil => exact absurd rfl hne
  | cons a parts =>
    unfold wsTokens
    have hsep : (" ".data : Str) = ' ' :: [] := rfl
    rw [hsep]
    rw [splitOnPred_intercalate isWs ' ' [] (by decide) (by simp) a parts
      (fun x hx => (htok a (List.mem_cons_self a parts)).2 x hx)
      (fun b hb x hx => (htok b (List.mem_cons_of_mem a hb)).2 x hx)]
    have hmap : parts.map (fun b => ([] : Str) ++ b) = parts := by simp
    rw [hmap]
    rw [List.filter_eq_self]
    intro t ht
    simp only [ne_eq, decide_eq_true_eq]
    exact (htok t ht).1

theorem argOfPart_eval (q : CtorParam) (pre : Str)
    (hq : ctorParamOk q) (hpre : ∀ c ∈ pre, isWs c = true) :
    argOfPart (pre ++ renderParam q) = some (expectedArg q) := by
  obtain ⟨hmods, hty, hname, hnmem, hdf⟩ := hq
  have htok : ∀ t ∈ q.mods ++ q.tyToks ++ [q.pname], t ≠ [] ∧ ∀ c ∈ t, isWs c = false := by
    intro t ht
    rcases List.mem_append.mp ht with h1 | h2
    · rcases List.mem_append.mp h1 with hm | hty2
      · exact ⟨(hmods t hm).1.1, fun c hc => ((hmods t hm).1.2 c hc).1⟩
      · exact ⟨(hty t hty2).1.1, fun c hc => ((hty t hty2).1.2 c hc).1⟩
    · have h3 : t = q.pname := by simpa using h2
      subst h3
      exact ⟨hname.1, fun c hc => (hname.2 c hc).1⟩
  have htsne : q.mods ++ q.tyToks ++ [q.pname] ≠ [] := by simp
  have hJeq : ∀ c ∈ joinSep (" ".data) (q.mods ++ q.tyToks ++ [q.pname]), c ≠ '=' := by
    intro c hc hceq
    subst hceq
    rcases mem_joinSep _ _ _ hc with ⟨t, ht, hmem⟩ | hsep
    · rcases List.mem_append.mp ht with h1 | h2
      · rcases List.mem_append.mp h1 with hm | hty2
        · exact ((hmods t hm).1.2 _ hmem).2.2 rfl
        · exact ((hty t hty2).1.2 _ hmem).2.2 rfl
      · have h3 : t = q.pname := by simpa using h2
        subst h3
        exact (hname.2 _ hmem).2.2 rfl
    · exact absurd hsep (by decide)
  have hpre2 : ∀ c ∈ pre, decide (c ≠ '=') = true := by
    intro c hc
    have := hpre c hc
    simp only [decide_eq_true_eq, ne_eq]
    intro h
    subst h
    exact absurd this (by decide)
  have hhead := tokJoin_head _ htsne htok
  have hlast := tokJoin_last _ htsne htok
  -- the trimmed text before the first `=` is exactly the joined tokens
  have hbe : trimWs (beforeChar '=' (pre ++ renderParam q)) =
      joinSep (" ".data) (q.mods ++ q.tyToks ++ [q.pname]) := by
    unfold renderParam beforeChar
    cases hdfq : q.dflt with
    | none =>
      rw [takeWhile_all]
      · have h0 : (pre ++ (joinSep (" ".data) (q.mods ++ q.tyToks ++ [q.pname]) ++ [])) =
            pre ++ joinSep (" ".data) (q.mods ++ q.tyToks ++ [q.pname]) ++ [] := by simp
        rw [show (pre ++ (joinSep (" ".data) (q.mods ++ q.tyToks ++ [q.pname]) ++ [])) =
            pre ++ joinSep (" ".data) (q.mods ++ q.tyToks ++ [q.pname]) ++ ([] : Str) by simp]
        exact trimWs_sandwich pre [] _ hpre (by simp) hhead hlast
      · intro c hc
        rcases List.mem_append.mp hc with h1 | h2
        · exact hpre2 c h1
        · rcases List.mem_append.mp h2 with h3 | h4
          · simp only [decide_eq_true_eq]
            exact hJeq c h3
          · simp at h4
    | some d =>
      have hshape : pre ++ (joinSep (" ".data) (q.mods ++ q.tyToks ++ [q.pname]) ++ (" = ".data ++ d)) =
          (pre ++ joinSep (" ".data) (q.mods ++ q.tyToks ++ [q.pname]) ++ [' ']) ++ '=' :: (' ' :: d) := by
        have hsepeq : (" = ".data : Str) = ' ' :: '=' :: [' '] := rfl
        rw [hsepeq]
        simp
      rw [hshape, takeWhile_append_stop]
      · rw [show (pre ++ joinSep (" ".data) (q.mods ++ q.tyToks ++ [q.pname]) ++ [' ']) =
            pre ++ joinSep (" ".data) (q.mods ++ q.tyToks ++ [q.pname]) ++ [' '] from rfl]
        exact trimWs_sandwich pre [' '] _ hpre (by decide) hhead hlast
      · intro c hc
        rcases List.mem_append.mp hc with h1 | h2
        · rcases List.mem_append.mp h1 with h3 | h4
          · exact hpre2 c h3
          · simp only [decide_eq_true_eq]
            exact hJeq c h4
        · have h5 : c = ' ' := by simpa using h2
          subst h5
          decide
      · decide
  -- evaluate argOfPart
  obtain ⟨hd, tl, hJ, _⟩ := hhead
  have hJne : joinSep (" ".data) (q.mods ++ q.tyToks ++ [q.pname]) ≠ [] := by
    rw [hJ]
    simp
  have hlastq : (q.mods ++ q.tyToks ++ [q.pname]).getLast? = some q.pname :=
    List.getLast?_concat _
  have hfilter : (q.mods ++ q.tyToks ++ [q.pname]).filter
      (fun t => decide (t ∈ ctorModifiers)) = q.mods := by
    rw [List.filter_append, List.filter_append]
    have h1 : q.mods.filter (fun t => decide (t ∈ ctorModifiers)) = q.mods := by
      rw [List.filter_eq_self]
      intro t ht
      simp only [decide_eq_true_eq]
      exact (hmods t ht).2
    have h2 : q.tyToks.filter (fun t => decide (t ∈ ctorModifiers)) = [] := by
      rw [List.filter_eq_nil_iff]
      intro t ht
      simp only [decide_eq_true_eq]
      exact (hty t ht).2
    have h3 : ([q.pname] : List Str).filter (fun t => decide (t ∈ ctorModifiers)) = [] := by
      simp [hnmem]
    rw [h1, h2, h3]
    simp
  unfold argOfPart
  simp only [hbe, if_neg hJne, wsTokens_joinSep _ htsne htok, hlastq, hfilter,
    if_neg hname.1]
  rfl

theorem filterMap_eq_map_of_some {α β γ} (l : List α) (f : α → β) (g : β → Option γ)
    (k : α → γ) (h : ∀ x ∈ l, g (f x) = some (k x)) :
    (l.map f).filterMap g = l.map k := by
  induction l with
  | nil => simp
  | cons a as ih =>
    rw [List.map_cons, List.filterMap_cons, h a (List.mem_cons_self a as), List.map_cons,
      ih (fun x hx => h x (List.mem_cons_of_mem a hx))]

theorem ctorParamOk_toks (q : CtorParam) (hq : ctorParamOk q) :
    ∀ t ∈ q.mods ++ q.tyToks ++ [q.pname], t ≠ [] ∧ ∀ c ∈ t, isWs c = false := by
  obtain ⟨hmods, hty, hname, _, _⟩ := hq
  intro t ht
  rcases List.mem_append.mp ht with h1 | h2
  · rcases List.mem_append.mp h1 with hm | hty2
    · exact ⟨(hmods t hm).1.1, fun c hc => ((hmods t hm).1.2 c hc).1⟩
    · exact ⟨(hty t hty2).1.1, fun c hc => ((hty t hty2).1.2 c hc).1⟩
  · have h3 : t = q.pname := by simpa using h2
    subst h3
    exact ⟨hname.1, fun c hc => (hname.2 c hc).1⟩

/-- **C1.** For every parameter-list text assembled from well-formed
parameters, the base-call argument list produced by `buildArgumentList`
names each parameter exactly once by its trailing identifier, in order,
with its `ref`/`out`/`in`/`this` modifiers re-prepended, and with no
default-value text forwarded: it is exactly the `", "`-join of
`modifiers ++ name` over the parameters. -/
theorem buildArgumentList_forwards (ps : List CtorParam) (hne : ps ≠ [])
    (hwf : ∀ p ∈ ps, ctorParamOk p) :
    buildArgumentList (renderParams ps) = joinSep (", ".data) (ps.map expectedArg) := by
  obtain ⟨p0, rest, rfl⟩ : ∃ a l, ps = a :: l := by
    cases ps with
    | nil => exact absurd rfl hne
    | cons a l => exact ⟨a, l, rfl⟩
  have hfree : ∀ q ∈ p0 :: rest, ∀ x ∈ renderParam q, (x == ',') = false :=
    fun q hq => joinSep_comma_free q (hwf q hq)
  have hsplit : splitOnChar ',' (renderParams (p0 :: rest)) =
      renderParam p0 :: rest.map (fun q => " ".data ++ renderParam q) := by
    unfold renderParams splitOnChar
    rw [show (", ".data : Str) = ',' :: " ".data from rfl, List.map_cons]
    rw [splitOnPred_intercalate (fun c => c == ',') ',' (" ".data) (by decide) (by decide)
      (renderParam p0) (rest.map renderParam)
      (hfree p0 (List.mem_cons_self p0 rest))
      (by
        intro b hb x hx
        obtain ⟨q, hq, rfl⟩ := List.mem_map.mp hb
        exact hfree q (List.mem_cons_of_mem p0 hq) x hx)]
    rw [List.map_map]
    rfl
  have hfm : (renderParam p0 :: rest.map (fun q => " ".data ++ renderParam q)).filterMap argOfPart
      = expectedArg p0 :: rest.map expectedArg := by
    rw [List.filterMap_cons]
    have h0 : argOfPart (renderParam p0) = some (expectedArg p0) := by
      have h1 := argOfPart_eval p0 [] (hwf p0 (List.mem_cons_self p0 rest)) (by simp)
      simpa using h1
    rw [h0]
    rw [filterMap_eq_map_of_some rest (fun q => " ".data ++ renderParam q) argOfPart expectedArg
      (fun q hq => argOfPart_eval q (" ".data) (hwf q (List.mem_cons_of_mem p0 hq)) (by decide))]
  have hguard : trimWs (renderParams (p0 :: rest)) ≠ [] := by
    have htok := ctorParamOk_toks p0 (hwf p0 (List.mem_cons_self p0 rest))
    obtain ⟨hd, tl, hJ, hhd⟩ := tokJoin_head _ (by simp) htok
    obtain ⟨r, hr⟩ := joinSep_cons_exists (", ".data) (renderParam p0) (rest.map renderParam)
    have hmem : hd ∈ renderParams (p0 :: rest) := by
      unfold renderParams
      rw [List.map_cons, hr]
      apply List.mem_append_left
      unfold renderParam
      apply List.mem_append_left
      rw [hJ]
      exact List.mem_cons_self hd tl
    exact trimWs_ne_nil_of_exists _ hd hmem hhd
  unfold buildArgumentList
  rw [if_neg hguard, hsplit, hfm, List.map_cons]

/-- Witness for C1 at the parameter list `ref int x = 5, string name`:
the forwarded call is `ref x, name`. -/
theorem buildArgumentList_forwards_witness :
    sampleCtorParams ≠ [] ∧
    renderParams sampleCtorParams = ("ref int x = 5, string name".data) ∧
    buildArgumentList (renderParams sampleCtorParams) =
      joinSep (", ".data) (sampleCtorParams.map expectedArg) ∧
    joinSep (", ".data) (sampleCtorParams.map expectedArg) = ("ref x, name".data) :=
  ⟨by decide, by decide,
   buildArgumentList_forwards sampleCtorParams (by decide) (by decide), by decide⟩

theorem infix_flatten_map {α} (f : α → Str) (l : List α) (a : α) (ha : a ∈ l) :
    f a <:+: (l.map f).flatten :=
  List.infix_of_mem_flatten (List.mem_map_of_mem f ha)

theorem infix_chunk3 {F M S1 pre S3 : Str} : F <:+: M ++ S1 ++ (pre ++ F) ++ S3 :=
  ⟨M ++ S1 ++ pre, S3, by simp [List.append_assoc]⟩

theorem infix_chunk4 {F M S1 S2 pre : Str} : F <:+: M ++ S1 ++ S2 ++ (pre ++ F) :=
  ⟨M ++ S1 ++ S2 ++ pre, [], by simp [List.append_assoc]⟩

theorem methodSegment_infix (indent newName nl : Str) (cs : List ConstructorInfo)
    (ms : List AbstractMethodInfo) (ps : List AbstractPropertyInfo)
    (m : AbstractMethodInfo) (hm : m ∈ ms) :
    CreateFileMode.methodSegment indent nl m <:+:
      CreateFileMode.generateClassBody indent newName cs ms ps nl := by
  have hlen : ms.length > 0 := List.length_pos.mpr (List.ne_nil_of_mem hm)
  have h1 : CreateFileMode.methodSegment indent nl m <:+:
      (ms.map (CreateFileMode.methodSegment indent nl)).flatten :=
    infix_flatten_map _ ms m hm
  refine h1.trans ?_
  unfold CreateFileMode.generateClassBody
  rw [if_pos hlen]
  exact infix_chunk3

theorem propSegment_infix (indent newName nl : Str) (cs : List ConstructorInfo)
    (ms : List AbstractMethodInfo) (ps : List AbstractPropertyInfo)
    (p : AbstractPropertyInfo) (hp : p ∈ ps) :
    CreateFileMode.propSegment indent nl p <:+:
      CreateFileMode.generateClassBody indent newName cs ms ps nl := by
  have hlen : ps.length > 0 := List.length_pos.mpr (List.ne_nil_of_mem hp)
  have h1 : CreateFileMode.propSegment indent nl p <:+:
      (ps.map (CreateFileMode.propSegment indent nl)).flatten :=
    infix_flatten_map _ ps p hp
  refine h1.trans ?_
  unfold CreateFileMode.generateClassBody
  rw [if_pos hlen]
  exact infix_chunk4

/-- **C2.** Every abstract-member override emitted by the synthesizer
mirrors its extraction record verbatim: the method override carries the
record's accessibility, return type, name, full generic-parameter text,
parameter text and constraint clause unmodified, and the property
override emits exactly one `get;`/`set;`/`init;` per set accessor flag. -/
theorem generateClassBody_mirrors (indent newName nl : Str)
    (cs : List ConstructorInfo) (ms : List AbstractMethodInfo)
    (ps : List AbstractPropertyInfo) :
    (∀ m ∈ ms,
      (indent ++ indent ++ m.accessibility ++ (" override ".data) ++ m.returnType ++ (" ".data)
        ++ m.name ++ m.fullTypeParameterText ++ ("(".data) ++ m.parameters ++ (")".data)
        ++ (if m.constraints = [] then [] else (" ".data) ++ m.constraints) ++ nl
        ++ indent ++ indent ++ ("\x7b".data) ++ nl
        ++ indent ++ indent ++ indent ++ ("throw new System.NotImplementedException();".data) ++ nl
        ++ indent ++ indent ++ ("\x7d".data) ++ nl ++ nl) <:+:
      CreateFileMode.generateClassBody indent newName cs ms ps nl) ∧
    (∀ p ∈ ps,
      (indent ++ indent ++ p.accessibility ++ (" override ".data) ++ p.type ++ (" ".data)
        ++ p.name ++ (" \x7b".data)
        ++ (if p.hasGetter then (" get;".data) else [])
        ++ (if p.hasSetter then (" set;".data) else [])
        ++ (if p.hasInit then (" init;".data) else [])
        ++ (" \x7d".data) ++ nl) <:+:
      CreateFileMode.generateClassBody indent newName cs ms ps nl) :=
  ⟨fun m hm => methodSegment_infix indent newName nl cs ms ps m hm,
   fun p hp => propSegment_infix indent newName nl cs ms ps p hp⟩

/-- Witness for C2 at a method-only base class (one abstract method
`public abstract double Area();`, no abstract properties) and a
property-only base class (one abstract property
`public abstract int Count { get; set; }`, no abstract methods). -/
theorem generateClassBody_mirrors_witness :
    sampleMethodInfo ∈ [sampleMethodInfo] ∧ samplePropInfo ∈ [samplePropInfo] ∧
    ((("    ".data) ++ ("    ".data) ++ sampleMethodInfo.accessibility ++ (" override ".data)
        ++ sampleMethodInfo.returnType ++ (" ".data)
        ++ sampleMethodInfo.name ++ sampleMethodInfo.fullTypeParameterText ++ ("(".data)
        ++ sampleMethodInfo.parameters ++ (")".data)
        ++ (if sampleMethodInfo.constraints = [] then []
            else (" ".data) ++ sampleMethodInfo.constraints) ++ ("\n".data)
        ++ ("    ".data) ++ ("    ".data) ++ ("\x7b".data) ++ ("\n".data)
        ++ ("    ".data) ++ ("    ".data) ++ ("    ".data)
        ++ ("throw new System.NotImplementedException();".data) ++ ("\n".data)
        ++ ("    ".data) ++ ("    ".data) ++ ("\x7d".data) ++ ("\n".data) ++ ("\n".data)) <:+:
      CreateFileMode.generateClassBody ("    ".data) ("Circle".data) []
        [sampleMethodInfo] [] ("\n".data)) ∧
    ((("    ".data) ++ ("    ".data) ++ samplePropInfo.accessibility ++ (" override ".data)
        ++ samplePropInfo.type ++ (" ".data) ++ samplePropInfo.name ++ (" \x7b".data)
        ++ (if samplePropInfo.hasGetter then (" get;".data) else [])
        ++ (if samplePropInfo.hasSetter then (" set;".data) else [])
        ++ (if samplePropInfo.hasInit then (" init;".data) else [])
        ++ (" \x7d".data) ++ ("\n".data)) <:+:
      CreateFileMode.generateClassBody ("    ".data) ("Circle".data) []
        [] [samplePropInfo] ("\n".data)) := by
  refine ⟨by decide, by decide, ?_, ?_⟩
  · exact (generateClassBody_mirrors ("    ".data) ("Circle".data) ("\n".data) []
      [sampleMethodInfo] []).1 sampleMethodInfo (by decide)
  · exact (generateClassBody_mirrors ("    ".data) ("Circle".data) ("\n".data) []
      [] [samplePropInfo]).2 samplePropInfo (by decide)

/-- **C9.** With zero constructors, abstract methods and abstract
properties, both synthesizer variants produce a class body consisting of
the `// TODO: implement` marker line alone, and the in-place variant's
full class text is exactly header, open brace, marker line, close
brace. -/
theorem emptyBase_marker_only (indent newName nl baseIndent indentUnit baseName suffix : Str) :
    CreateFileMode.generateClassBody indent newName [] [] [] nl =
      indent ++ indent ++ ("// TODO: implement".data) ++ nl ∧
    InsertMode.generateClassBody indentUnit baseIndent newName [] [] [] nl =
      baseIndent ++ indentUnit ++ ("// TODO: implement".data) ++ nl ∧
    InsertMode.buildDerivedClassText baseIndent indentUnit baseName newName suffix [] [] [] nl =
      baseIndent ++ ("public class ".data) ++ newName ++ (" : ".data) ++ baseName ++ suffix ++ nl
      ++ baseIndent ++ ("\x7b".data) ++ nl
      ++ (baseIndent ++ indentUnit) ++ ("// TODO: implement".data) ++ nl
      ++ baseIndent ++ ("\x7d".data) ++ nl := by
  refine ⟨?_, ?_, ?_⟩ <;>
    simp [CreateFileMode.generateClassBody, InsertMode.generateClassBody,
      InsertMode.buildDerivedClassText, List.append_assoc]

/-- **C10.** In both placement modes the derived-class declaration is
emitted with the `public` modifier, `public class <newName> : <baseName><suffix>`,
whatever the base class's own accessibility was (the generators never
read it). -/
theorem derived_header_public (baseIndent indentUnit baseName newName suffix nl : Str)
    (tps : List Str) (namespaceOpt : Option Str)
    (cs : List ConstructorInfo) (ms : List AbstractMethodInfo)
    (ps : List AbstractPropertyInfo) :
    (("public class ".data) ++ newName ++ (" : ".data) ++ baseName ++ suffix) <:+:
      InsertMode.buildDerivedClassText baseIndent indentUnit baseName newName suffix
        cs ms ps nl ∧
    (("public class ".data) ++ newName ++ (" : ".data) ++ baseName ++ genericSuffix tps) <:+:
      CreateFileMode.createDerivedClassFileContent namespaceOpt nl baseName newName tps
        cs ms ps := by
  constructor
  · exact ⟨baseIndent,
      nl ++ baseIndent ++ ("\x7b".data) ++ nl
        ++ InsertMode.generateClassBody indentUnit baseIndent newName cs ms ps nl
        ++ baseIndent ++ ("\x7d".data) ++ nl,
      by simp [InsertMode.buildDerivedClassText, List.append_assoc]⟩
  · cases namespaceOpt with
    | some ns =>
      exact ⟨("namespace ".data) ++ ns ++ nl ++ ("\x7b".data) ++ nl ++ ("    ".data),
        nl ++ ("    ".data) ++ ("\x7b".data) ++ nl
          ++ CreateFileMode.generateClassBody ("    ".data) newName cs ms ps nl
          ++ ("    ".data) ++ ("\x7d".data) ++ nl ++ ("\x7d".data) ++ nl,
        by simp [CreateFileMode.createDerivedClassFileContent, List.append_assoc]⟩
    | none =>
      exact ⟨[],
        nl ++ ("\x7b".data) ++ nl
          ++ CreateFileMode.generateClassBody ("    ".data) newName cs ms ps nl
          ++ ("\x7d".data) ++ nl,
        by simp [CreateFileMode.createDerivedClassFileContent, List.append_assoc]⟩

/-- **C5 counterexample.** In `class Shape { }` followed by
`new Shape(5);`, constructor extraction surfaces a `ConstructorInfo`
with parameter text `5` although the class body (located by the
brace-matching primitive) is the single space `" "`, which does not even
contain the character `5`: the entry originates outside the class body. -/
theorem detectConstructors_outside_body :
    detectConstructors ceCtorDoc ("Shape".data) = [⟨none, "5".data, "5".data⟩] ∧
    extractClassBody ceCtorDoc ("Shape".data) = some (" ".data) ∧
    '5' ∉ (" ".data : Str) :=
  ⟨by decide, by decide, by decide⟩

theorem scanCtors_entries (nm : Str) :
    ∀ (fuel : Nat) (prev : Option Char) (s : Str) (info : ConstructorInfo),
      info ∈ scanCtors nm fuel prev s →
      info.parameters ≠ [] ∧ info.argumentList = buildArgumentList info.parameters := by
  intro fuel
  induction fuel with
  | zero =>
    intro prev s info h
    simp [scanCtors] at h
  | succ n ih =>
    intro prev s info h
    cases s with
    | nil => simp [scanCtors] at h
    | cons c rest =>
      rw [scanCtors] at h
      cases htry : tryCtorAt nm prev (c :: rest) with
      | none =>
        rw [htry] at h
        exact ih _ _ _ h
      | some v =>
        obtain ⟨acc, raw, after⟩ := v
        rw [htry] at h
        simp only at h
        by_cases hp : trimWs raw = []
        · rw [if_pos hp] at h
          exact ih _ _ _ h
        · rw [if_neg hp] at h
          rcases List.mem_cons.mp h with h1 | h2
          · subst h1
            exact ⟨hp, rfl⟩
          · exact ih _ _ _ h2

/-- **C5 (amended).** Constructor extraction scans the whole document
text rather than the first class body: every surfaced `ConstructorInfo`
comes from a match of the constructor pattern anywhere in the document,
has non-empty trimmed parameter text, and carries the forwarded argument
list `buildArgumentList` derives from that text. -/
theorem detectConstructors_entries (text nm : Str) (info : ConstructorInfo)
    (h : info ∈ detectConstructors text nm) :
    info.parameters ≠ [] ∧ info.argumentList = buildArgumentList info.parameters :=
  scanCtors_entries nm _ _ _ info h

/-- Witness for the amended C5 at the counterexample document. -/
theorem detectConstructors_entries_witness :
    (⟨none, "5".data, "5".data⟩ : ConstructorInfo) ∈
        detectConstructors ceCtorDoc ("Shape".data) ∧
    ((⟨none, "5".data, "5".data⟩ : ConstructorInfo).parameters ≠ [] ∧
      (⟨none, "5".data, "5".data⟩ : ConstructorInfo).argumentList =
        buildArgumentList (⟨none, "5".data, "5".data⟩ : ConstructorInfo).parameters) :=
  ⟨by decide, detectConstructors_entries ceCtorDoc ("Shape".data) _ (by decide)⟩

/-- **C6 counterexample.** `class B { public abstract int X { } }`: the
abstract-property extractor surfaces an `AbstractPropertyInfo` whose
three accessor flags are all false — the property is not dropped. -/
theorem abstractProperty_flagless_surfaced :
    detectAbstractPropertiesInClass cePropDoc ("B".data) =
      [⟨"public".data, "int".data, "X".data, false, false, false⟩] := by decide

/-- **C6 (amended).** An abstract property surfaced with all three
accessor flags false (which the extractor does produce) is not dropped by
the synthesizer: the derived class contains for it an override whose
accessor list between the braces is empty. -/
theorem flagless_property_override (indent newName nl : Str)
    (cs : List ConstructorInfo) (ms : List AbstractMethodInfo)
    (ps : List AbstractPropertyInfo) (p : AbstractPropertyInfo) (hp : p ∈ ps)
    (hg : p.hasGetter = false) (hs : p.hasSetter = false) (hi : p.hasInit = false) :
    (indent ++ indent ++ p.accessibility ++ (" override ".data) ++ p.type ++ (" ".data)
      ++ p.name ++ (" \x7b".data) ++ (" \x7d".data) ++ nl) <:+:
      CreateFileMode.generateClassBody indent newName cs ms ps nl := by
  have h1 := propSegment_infix indent newName nl cs ms ps p hp
  have h2 : CreateFileMode.propSegment indent nl p =
      indent ++ indent ++ p.accessibility ++ (" override ".data) ++ p.type ++ (" ".data)
      ++ p.name ++ (" \x7b".data) ++ (" \x7d".data) ++ nl := by
    simp [CreateFileMode.propSegment, hg, hs, hi]
  rwa [h2] at h1

/-- Witness for the amended C6 at the flagless property record. -/
theorem flagless_property_override_witness :
    ((("    ".data) ++ ("    ".data) ++ sampleFlaglessProp.accessibility
      ++ (" override ".data) ++ sampleFlaglessProp.type ++ (" ".data)
      ++ sampleFlaglessProp.name ++ (" \x7b".data) ++ (" \x7d".data) ++ ("\n".data)) <:+:
      CreateFileMode.generateClassBody ("    ".data) ("DerivedB".data) [] []
        [sampleFlaglessProp] ("\n".data)) :=
  flagless_property_override ("    ".data) ("DerivedB".data) ("\n".data) [] []
    [sampleFlaglessProp] sampleFlaglessProp (by decide) (by decide) (by decide) (by decide)

theorem hasPre_refl_append : ∀ (nm Y : Str), hasPre nm (nm ++ Y) = true
  | [], _ => rfl
  | a :: as, Y => by simp [hasPre, hasPre_refl_append as Y]

theorem getElem_zero_head (Y : Str) : Y[0]? = Y.head? := by cases Y <;> simp

/-- At the position right after an explicit space, a non-empty all-word
name followed by a non-word character matches `\b<name>\b` and the
remaining text is exactly the suffix. -/
theorem occurrence_core (nm P Y : Str) (hne : nm ≠ [])
    (hword : ∀ c ∈ nm, isWordChar c = true) (hY : isWordOpt Y.head? = false) :
    boundaryAt (P ++ ' ' :: (nm ++ Y)) (P.length + 1) = true ∧
    hasPre nm ((P ++ ' ' :: (nm ++ Y)).drop (P.length + 1)) = true ∧
    boundaryAt (P ++ ' ' :: (nm ++ Y)) (P.length + 1 + nm.length) = true ∧
    (P ++ ' ' :: (nm ++ Y)).drop (P.length + 1 + nm.length) = Y := by
  have hdrop1 : (P ++ ' ' :: (nm ++ Y)).drop (P.length + 1) = nm ++ Y := by
    calc (P ++ ' ' :: (nm ++ Y)).drop (P.length + 1)
        = ((P ++ [' ']) ++ (nm ++ Y)).drop ((P ++ [' ']).length) := by simp
      _ = nm ++ Y := List.drop_left _ _
  have hdrop2 : (P ++ ' ' :: (nm ++ Y)).drop (P.length + 1 + nm.length) = Y := by
    have hshape : P ++ ' ' :: (nm ++ Y) = ((P ++ [' ']) ++ nm) ++ Y := by simp
    have hlen : ((P ++ [' ']) ++ nm).length = P.length + 1 + nm.length := by
      simp
      omega
    rw [hshape, ← hlen, List.drop_left]
  obtain ⟨n0, nm1, hcons⟩ : ∃ a l, nm = a :: l := by
    cases nm with
    | nil => exact absurd rfl hne
    | cons a l => exact ⟨a, l, rfl⟩
  obtain ⟨fr, lc, hconc⟩ : ∃ L b, nm = L ++ [b] := by
    rcases List.eq_nil_or_concat nm with h | ⟨L, b, h⟩
    · exact absurd h hne
    · exact ⟨L, b, by simpa [List.concat_eq_append] using h⟩
  have b1 : boundaryAt (P ++ ' ' :: (nm ++ Y)) (P.length + 1) = true := by
    unfold boundaryAt
    rw [if_neg (Nat.succ_ne_zero P.length)]
    have hleft : (P ++ ' ' :: (nm ++ Y))[P.length + 1 - 1]? = some ' ' := by
      simp only [Nat.add_sub_cancel]
      rw [List.getElem?_append_right (Nat.le_refl P.length)]
      simp
    have hright : (P ++ ' ' :: (nm ++ Y))[P.length + 1]? = some n0 := by
      rw [List.getElem?_append_right (Nat.le_succ_of_le (Nat.le_refl P.length))]
      simp [hcons]
    rw [hleft, hright]
    have hn0 : isWordChar n0 = true := hword n0 (by simp [hcons])
    simp [isWordOpt, hn0]
    decide
  have b2 : boundaryAt (P ++ ' ' :: (nm ++ Y)) (P.length + 1 + nm.length) = true := by
    unfold boundaryAt
    rw [if_neg (by omega)]
    have hleft : (P ++ ' ' :: (nm ++ Y))[P.length + 1 + nm.length - 1]? = some lc := by
      have hshape : P ++ ' ' :: (nm ++ Y) = (((P ++ [' ']) ++ fr) ++ [lc]) ++ Y := by
        rw [hconc]
        simp [List.append_assoc]
      have hlen : (((P ++ [' ']) ++ fr)).length = P.length + 1 + nm.length - 1 := by
        rw [hconc]
        simp
        omega
      rw [hshape, List.append_assoc, List.getElem?_append_right (Nat.le_of_eq hlen), hlen]
      simp
    have hright : (P ++ ' ' :: (nm ++ Y))[P.length + 1 + nm.length]? = Y.head? := by
      have hshape : P ++ ' ' :: (nm ++ Y) = ((P ++ [' ']) ++ nm) ++ Y := by
        simp [List.append_assoc]
      have hlen : ((P ++ [' ']) ++ nm).length = P.length + 1 + nm.length := by
        simp
        omega
      rw [hshape, List.getElem?_append_right (Nat.le_of_eq hlen), hlen]
      simp [getElem_zero_head]
    rw [hleft, hright]
    have hlc : isWordChar lc = true := hword lc (by simp [hconc])
    simp [isWordOpt, hlc]
    cases hYh : Y.head? with
    | none => simp [isWordOpt] at hY ⊢
    | some y =>
      rw [hYh] at hY
      simp [isWordOpt] at hY
      simp [hY]
  refine ⟨b1, ?_, b2, hdrop2⟩
  rw [hdrop1]
  exact hasPre_refl_append nm Y

theorem propNamePatternTest_of_shape (nm body P Z : Str) (hne : nm ≠ [])
    (hword : ∀ c ∈ nm, isWordChar c = true)
    (hbody : body = P ++ ' ' :: (nm ++ (' ' :: '{' :: Z))) :
    propNamePatternTest nm body = true := by
  subst hbody
  obtain ⟨b1, b2, b3, b4⟩ :=
    occurrence_core nm P (' ' :: '{' :: Z) hne hword rfl
  unfold propNamePatternTest
  rw [List.any_eq_true]
  refine ⟨P.length + 1, ?_, ?_⟩
  · rw [List.mem_range]
    simp only [List.length_append, List.length_cons]
    omega
  · have hdw : ((' ' :: '{' :: Z : Str)).dropWhile isWs = '{' :: Z := by
      rw [List.dropWhile_cons, if_pos (by decide), List.dropWhile_cons, if_neg (by decide)]
    simp only [b1, b2, b3, b4, hdw, Bool.true_and, Bool.and_self]

theorem methodNamePatternTest_paren (nm body P Z : Str) (hne : nm ≠ [])
    (hword : ∀ c ∈ nm, isWordChar c = true)
    (hbody : body = P ++ ' ' :: (nm ++ ('(' :: Z))) :
    methodNamePatternTest nm body = true := by
  subst hbody
  obtain ⟨b1, b2, b3, b4⟩ :=
    occurrence_core nm P ('(' :: Z) hne hword rfl
  unfold methodNamePatternTest
  rw [List.any_eq_true]
  refine ⟨P.length + 1, ?_, ?_⟩
  · rw [List.mem_range]
    simp only [List.length_append, List.length_cons]
    omega
  · have hdw : (('(' :: Z : Str)).dropWhile isWs = '(' :: Z := by
      rw [List.dropWhile_cons, if_neg (by decide)]
    simp only [b1, b2, b3, b4, hdw, Bool.true_and, Bool.and_self]

theorem methodNamePatternTest_generic (nm body P inner Z : Str) (hne : nm ≠ [])
    (hword : ∀ c ∈ nm, isWordChar c = true)
    (hinner : inner ≠ []) (hinner2 : ∀ c ∈ inner, c ≠ '>')
    (hbody : body = P ++ ' ' :: (nm ++ ('<' :: (inner ++ '>' :: '(' :: Z)))) :
    methodNamePatternTest nm body = true := by
  subst hbody
  obtain ⟨b1, b2, b3, b4⟩ :=
    occurrence_core nm P ('<' :: (inner ++ '>' :: '(' :: Z)) hne hword rfl
  unfold methodNamePatternTest
  rw [List.any_eq_true]
  refine ⟨P.length + 1, ?_, ?_⟩
  · rw [List.mem_range]
    simp only [List.length_append, List.length_cons]
    omega
  · have hdw : (('<' :: (inner ++ '>' :: '(' :: Z) : Str)).dropWhile isWs =
        '<' :: (inner ++ '>' :: '(' :: Z) := by
      rw [List.dropWhile_cons, if_neg (by decide)]
    have htake : (inner ++ '>' :: '(' :: Z).takeWhile (fun c => c != '>') = inner :=
      takeWhile_append_stop _ inner ('(' :: Z) '>'
        (fun c hc => by simp [hinner2 c hc]) (by decide)
    have hdropi : (inner ++ '>' :: '(' :: Z).drop inner.length = '>' :: '(' :: Z :=
      List.drop_left _ _
    have hdw2 : (('(' :: Z : Str)).dropWhile isWs = '(' :: Z := by
      rw [List.dropWhile_cons, if_neg (by decide)]
    simp [b1, b2, b3, b4, hdw, htake, hdropi, hdw2, hinner, hasPre_refl_append]

/-- **C4.** Adding a member to an existing interface is idempotent: after
one insertion the duplicate guard's name pattern (name then `{` for
properties; name, optional generic parameter list, then `(` for methods)
matches inside the grown interface body, so a second invocation of
`addMemberToExistingInterface` with the same member reports
success-no-op (`none`) and builds no edit — the body keeps a single
declaration line for the member. -/
theorem addMember_idempotent (B0 indent eol iname : Str) (lead lead2 : Bool)
    (member : ExtractedMember)
    (hne : memberName member ≠ [])
    (hword : ∀ c ∈ memberName member, isWordChar c = true)
    (hftpt : ∀ m, member = .method m →
      m.fullTypeParameterText = [] ∨
        ∃ inner, inner ≠ [] ∧ (∀ c ∈ inner, c ≠ '>') ∧
          m.fullTypeParameterText = '<' :: (inner ++ ['>'])) :
    isMemberDeclaredInInterfaces member
      [⟨iname, B0 ++ ((if lead then eol else []) ++ buildInterfaceMemberLine member indent eol),
        indent⟩] = true ∧
    addMemberToExistingInterface
      ⟨iname, B0 ++ ((if lead then eol else []) ++ buildInterfaceMemberLine member indent eol),
        indent⟩ member eol lead2 = none := by
  have hdecl : isMemberDeclaredInInterfaces member
      [⟨iname, B0 ++ ((if lead then eol else []) ++ buildInterfaceMemberLine member indent eol),
        indent⟩] = true := by
    cases member with
    | property p =>
      unfold isMemberDeclaredInInterfaces
      rw [if_neg (by simp)]
      simp only [List.any_cons, List.any_nil, Bool.or_false]
      refine propNamePatternTest_of_shape p.name _
        (B0 ++ (if lead then eol else []) ++ indent ++ p.type)
        ((if p.hasGetter then (" get;".data) else []) ++
         (if p.hasSetter then (" set;".data) else []) ++
         (if p.hasInit then (" init;".data) else []) ++ (" \x7d".data) ++ eol)
        hne hword ?_
      simp [buildInterfaceMemberLine, List.append_assoc]
    | method m =>
      unfold isMemberDeclaredInInterfaces
      rw [if_neg (by simp)]
      simp only [List.any_cons, List.any_nil, Bool.or_false]
      rcases hftpt m rfl with hempty | ⟨inner, hi1, hi2, hshape⟩
      · refine methodNamePatternTest_paren m.name _
          (B0 ++ (if lead then eol else []) ++ indent ++ m.returnType)
          (m.parameters ++ (")".data) ++
            (match m.constraints with
             | some c => if c.length > 0 then (" ".data) ++ c else []
             | none => []) ++ (";".data) ++ eol)
          hne hword ?_
        simp [buildInterfaceMemberLine, hempty, List.append_assoc]
      · refine methodNamePatternTest_generic m.name _
          (B0 ++ (if lead then eol else []) ++ indent ++ m.returnType) inner
          (m.parameters ++ (")".data) ++
            (match m.constraints with
             | some c => if c.length > 0 then (" ".data) ++ c else []
             | none => []) ++ (";".data) ++ eol)
          hne hword hi1 hi2 ?_
        simp [buildInterfaceMemberLine, hshape, List.append_assoc]
  refine ⟨hdecl, ?_⟩
  unfold addMemberToExistingInterface
  rw [if_pos hdecl]

/-- Witness for C4: re-adding method `Bar()` to an interface that just
received it is a no-op. -/
theorem addMember_idempotent_witness :
    isMemberDeclaredInInterfaces sampleIfaceMethod
      [⟨"IFoo".data, ("\n".data) ++ ((if true then ("\n".data) else []) ++
          buildInterfaceMemberLine sampleIfaceMethod ("    ".data) ("\n".data)),
        "    ".data⟩] = true ∧
    addMemberToExistingInterface
      ⟨"IFoo".data, ("\n".data) ++ ((if true then ("\n".data) else []) ++
          buildInterfaceMemberLine sampleIfaceMethod ("    ".data) ("\n".data)),
        "    ".data⟩ sampleIfaceMethod ("\n".data) false = none :=
  addMember_idempotent ("\n".data) ("    ".data) ("\n".data) ("IFoo".data) true false
    sampleIfaceMethod (by decide) (by decide)
    (by
      intro m hm
      have h2 : ExtractedMember.method m = ExtractedMember.method
          ⟨"Bar".data, "void".data, [], [], [], none, some ("public".data), none,
            none, 0, []⟩ := hm.symm.trans rfl
      injection h2 with h3
      subst h3
      exact Or.inl rfl)

/-- **C8 counterexample.** A provider returning an *empty* symbol array is
truthy in JS, so the empty result is cached rather than evicted, in both
implementations: on an empty cache, a call whose provider yields
`some []` installs a cache entry for the document (the claim requires
eviction). -/
theorem emptySymbols_cached :
    getDocumentSymbols ([] : SymCache Nat) ("doc".data) 0 (.ok (some [])) =
      ([], [("doc".data, 0, [])]) ∧
    cacheGet (getDocumentSymbols ([] : SymCache Nat) ("doc".data) 0 (.ok (some []))).2
      ("doc".data) = some (0, []) ∧
    getDocumentSymbolsCM ([] : SymCache Nat) ("doc".data) 0 (.ok (some [])) =
      ([], [("doc".data, 0, [])]) :=
  ⟨by decide, by decide, by decide⟩

/-- **C8 (amended).** The part_004 lookup is memoized per document
identity and version: a same-version hit returns the cached tree and
leaves the cache unchanged; without such a hit, a provider exception or
missing array evicts the entry and returns the empty tree, while any
returned array — including an empty one — is cached under the current
version and returned as is.  The classMembers.ts variant serves a
same-version hit only when more than one symbol is cached: with 0 or 1
cached symbols it re-invokes the provider even at the same version, so
a returned array overwrites the entry and a failure evicts it, both
without any version change; its miss behaviour matches part_004. -/
theorem getDocumentSymbols_spec {σ : Type} (cache : SymCache σ) (key : Str)
    (version : Nat) (provider : Except Unit (Option (List σ))) :
    (∀ syms, cacheGet cache key = some (version, syms) →
        getDocumentSymbols cache key version provider = (syms, cache)) ∧
    (∀ syms2, cacheHit cache key version = false →
        provider = .ok (some syms2) →
        getDocumentSymbols cache key version provider =
          (syms2, cacheSet cache key (version, syms2))) ∧
    (cacheHit cache key version = false →
        (provider = .error () ∨ provider = .ok none) →
        getDocumentSymbols cache key version provider = ([], cacheDel cache key)) ∧
    (∀ syms2, cacheGet (cacheSet cache key (version, syms2)) key =
        some (version, syms2)) ∧
    cacheGet (cacheDel cache key) key = none ∧
    (∀ syms, cacheGet cache key = some (version, syms) → syms.length > 1 →
        getDocumentSymbolsCM cache key version provider = (syms, cache)) ∧
    (∀ syms syms2, cacheGet cache key = some (version, syms) → syms.length ≤ 1 →
        provider = .ok (some syms2) →
        getDocumentSymbolsCM cache key version provider =
          (syms2, cacheSet cache key (version, syms2))) ∧
    (∀ syms, cacheGet cache key = some (version, syms) → syms.length ≤ 1 →
        (provider = .error () ∨ provider = .ok none) →
        getDocumentSymbolsCM cache key version provider = ([], cacheDel cache key)) ∧
    (∀ syms2, cacheHit cache key version = false →
        provider = .ok (some syms2) →
        getDocumentSymbolsCM cache key version provider =
          (syms2, cacheSet cache key (version, syms2))) ∧
    (cacheHit cache key version = false →
        (provider = .error () ∨ provider = .ok none) →
        getDocumentSymbolsCM cache key version provider = ([], cacheDel cache key)) := by
  refine ⟨?_, ?_, ?_, ?_, ?_, ?_, ?_, ?_, ?_, ?_⟩
  · intro syms hget
    unfold getDocumentSymbols
    rw [hget]
    simp
  · intro syms2 hmiss hprov
    unfold getDocumentSymbols
    subst hprov
    unfold cacheHit at hmiss
    cases hget : cacheGet cache key with
    | none => simp
    | some e =>
      obtain ⟨v, syms⟩ := e
      rw [hget] at hmiss
      simp only [beq_eq_false_iff_ne, ne_eq] at hmiss
      simp [hmiss]
  · intro hmiss hprov
    unfold getDocumentSymbols
    unfold cacheHit at hmiss
    cases hget : cacheGet cache key with
    | none =>
      rcases hprov with h | h <;> subst h <;> simp
    | some e =>
      obtain ⟨v, syms⟩ := e
      rw [hget] at hmiss
      simp only [beq_eq_false_iff_ne, ne_eq] at hmiss
      rcases hprov with h | h <;> subst h <;> simp [hmiss]
  · intro syms2
    unfold cacheGet cacheSet
    simp [List.find?_cons]
  · unfold cacheGet cacheDel
    cases hf : (cache.filter (fun e => decide (e.1 ≠ key))).find?
        (fun e => decide (e.1 = key)) with
    | none => simp [hf]
    | some e =>
      have hmem := List.mem_of_find?_eq_some hf
      have hpred := List.find?_some hf
      have hfilter := List.of_mem_filter hmem
      simp only [decide_eq_true_eq] at hpred hfilter
      exact absurd hpred hfilter
  · intro syms hget hlen
    unfold getDocumentSymbolsCM
    rw [hget]
    simp [hlen]
  · intro syms syms2 hget hlen hprov
    unfold getDocumentSymbolsCM
    subst hprov
    rw [hget]
    have hnlt : ¬(1 < syms.length) := by omega
    simp [hnlt]
  · intro syms hget hlen hprov
    unfold getDocumentSymbolsCM
    rw [hget]
    have hnlt : ¬(1 < syms.length) := by omega
    rcases hprov with h | h <;> subst h <;> simp [hnlt]
  · intro syms2 hmiss hprov
    unfold getDocumentSymbolsCM
    subst hprov
    unfold cacheHit at hmiss
    cases hget : cacheGet cache key with
    | none => simp
    | some e =>
      obtain ⟨v, syms⟩ := e
      rw [hget] at hmiss
      simp only [beq_eq_false_iff_ne, ne_eq] at hmiss
      simp [hmiss]
  · intro hmiss hprov
    unfold getDocumentSymbolsCM
    unfold cacheHit at hmiss
    cases hget : cacheGet cache key with
    | none =>
      rcases hprov with h | h <;> subst h <;> simp
    | some e =>
      obtain ⟨v, syms⟩ := e
      rw [hget] at hmiss
      simp only [beq_eq_false_iff_ne, ne_eq] at hmiss
      rcases hprov with h | h <;> subst h <;> simp [hmiss]

/-- Witness for the amended C8: part_004 serves a same-version hit from
the cache even while the provider throws, and evicts on a stale-version
throw; classMembers serves a same-version hit only with two cached
symbols, while a same-version entry holding one symbol is overwritten by
a fresh provider array or evicted on a throw — both at an unchanged
version. -/
theorem getDocumentSymbols_spec_witness :
    getDocumentSymbols ([("doc".data, 1, [7])] : SymCache Nat) ("doc".data) 1
      (.error ()) = ([7], [("doc".data, 1, [7])]) ∧
    getDocumentSymbols ([("doc".data, 1, [7])] : SymCache Nat) ("doc".data) 2
      (.error ()) = ([], []) ∧
    getDocumentSymbolsCM ([("doc".data, 1, [7, 8])] : SymCache Nat) ("doc".data) 1
      (.error ()) = ([7, 8], [("doc".data, 1, [7, 8])]) ∧
    getDocumentSymbolsCM ([("doc".data, 1, [7])] : SymCache Nat) ("doc".data) 1
      (.ok (some [8, 9])) = ([8, 9], [("doc".data, 1, [8, 9])]) ∧
    getDocumentSymbolsCM ([("doc".data, 1, [7])] : SymCache Nat) ("doc".data) 1
      (.error ()) = ([], []) := by
  refine ⟨?_, ?_, ?_, ?_, ?_⟩
  · exact (getDocumentSymbols_spec [("doc".data, 1, [7])] ("doc".data) 1
      (.error ())).1 [7] (by decide)
  · have h := (getDocumentSymbols_spec ([("doc".data, 1, [7])] : SymCache Nat)
      ("doc".data) 2 (.error ())).2.2.1 (by decide) (Or.inl rfl)
    simpa using h
  · exact (getDocumentSymbols_spec ([("doc".data, 1, [7, 8])] : SymCache Nat)
      ("doc".data) 1 (.error ())).2.2.2.2.2.1 [7, 8] (by decide) (by decide)
  · have h := (getDocumentSymbols_spec ([("doc".data, 1, [7])] : SymCache Nat)
      ("doc".data) 1 (.ok (some [8, 9]))).2.2.2.2.2.2.1 [7] [8, 9]
      (by decide) (by decide) rfl
    exact h.trans (by decide)
  · have h := (getDocumentSymbols_spec ([("doc".data, 1, [7])] : SymCache Nat)
      ("doc".data) 1 (.error ())).2.2.2.2.2.2.2.1 [7] (by decide) (by decide)
      (Or.inl rfl)
    exact h.trans (by decide)

theorem takeWhile_ws_prefix (w0 r : Str) (hw0 : ∀ c ∈ w0, isWs c = true)
    (hr : ∀ c, r.head? = some c → isWs c = false) :
    (w0 ++ r).takeWhile isWs = w0 := by
  cases r with
  | nil => simpa using takeWhile_all isWs w0 hw0
  | cons c rest => exact takeWhile_append_stop isWs w0 rest c hw0 (hr c rfl)

theorem promStarLoop_none (fuel : Nat) (g1 s : Str)
    (hhead : ∀ c, s.head? = some c → c ≠ '[' ∧ c ≠ '/')
    (hnopriv : hasPre ("private".data) s = false ∨ (s.drop 7).takeWhile isWs = []) :
    promStarLoop fuel g1 s = none := by
  cases fuel with
  | zero => rfl
  | succ n =>
    have hattr : attrSplit s = none := by
      unfold attrSplit
      split
      · exact absurd rfl (hhead '[' rfl).1
      · rfl
    have hdoc : hasPre ("///".data) s = false := by
      cases s with
      | nil => rfl
      | cons c rest =>
        have hc := (hhead c rfl).2
        have h3 : ('/' == c) = false := by
          simp only [beq_eq_false_iff_ne, ne_eq]
          exact fun h => hc h.symm
        simp [hasPre, h3]
    rw [promStarLoop]
    simp only [hattr, stripPre, hdoc, Bool.false_eq_true, if_false]
    cases hp : hasPre ("private".data) s with
    | false => simp
    | true =>
      rcases hnopriv with h | h
      · rw [hp] at h
        cases h
      · simp only [if_true]
        have hlen : ("private".data : Str).length = 7 := rfl
        rw [hlen, h]
        simp

theorem promStarLoop_exit (fuel : Nat) (g1 w1 r : Str) (hw1ne : w1 ≠ [])
    (hw1 : ∀ c ∈ w1, isWs c = true)
    (hr : ∀ c, r.head? = some c → isWs c = false) :
    promStarLoop (fuel + 1) g1 (("private".data) ++ (w1 ++ r)) = some (g1, w1, r) := by
  have hattr : attrSplit (("private".data) ++ (w1 ++ r)) = none := rfl
  have hdoc : stripPre ("///".data) (("private".data) ++ (w1 ++ r)) = none := rfl
  have hstrip : stripPre ("private".data) (("private".data) ++ (w1 ++ r)) =
      some (w1 ++ r) := by
    unfold stripPre
    rw [if_pos (hasPre_refl_append _ _), List.drop_left]
  have htw : (w1 ++ r).takeWhile isWs = w1 := takeWhile_ws_prefix w1 r hw1 hr
  rw [promStarLoop]
  simp only [hattr, hdoc, hstrip, htw, if_neg hw1ne]
  rw [List.drop_left]

theorem promMatch_leading_private (w0 w1 r : Str)
    (hw0 : ∀ c ∈ w0, isWs c = true) (hw1ne : w1 ≠ [])
    (hw1 : ∀ c ∈ w1, isWs c = true)
    (hr : ∀ c, r.head? = some c → isWs c = false) :
    promMatch (w0 ++ (("private".data) ++ (w1 ++ r))) = some (w0, w1, r) := by
  have hphead : ∀ c, (("private".data) ++ (w1 ++ r)).head? = some c → isWs c = false := by
    intro c hc
    have h2 : c = 'p' := by
      have : (("private".data) ++ (w1 ++ r)).head? = some 'p' := rfl
      rw [this] at hc
      exact (Option.some_inj.mp hc).symm
    rw [h2]
    decide
  have htw : (w0 ++ (("private".data) ++ (w1 ++ r))).takeWhile isWs = w0 :=
    takeWhile_ws_prefix w0 _ hw0 hphead
  unfold promMatch wsSplits
  rw [htw, List.range_succ_eq_map, List.map_cons, List.findSome?_cons]
  have htake : (w0 ++ (("private".data) ++ (w1 ++ r))).take (w0.length - 0) = w0 := by
    rw [Nat.sub_zero]
    exact List.take_left _ _
  have hdrop : (w0 ++ (("private".data) ++ (w1 ++ r))).drop (w0.length - 0) =
      ("private".data) ++ (w1 ++ r) := by
    rw [Nat.sub_zero]
    exact List.drop_left _ _
  rw [htake, hdrop]
  have hfuel : ∃ n, (w0 ++ (("private".data) ++ (w1 ++ r))).length + 1 = n + 1 :=
    ⟨_, rfl⟩
  obtain ⟨n, hn⟩ := hfuel
  rw [hn, promStarLoop_exit n [] w1 r hw1ne hw1 hr]
  simp

theorem promMatch_none (w0 r : Str)
    (hw0 : ∀ c ∈ w0, isWs c = true)
    (hr : ∀ c, r.head? = some c → isWs c = false ∧ c ≠ '[' ∧ c ≠ '/')
    (hnopriv : ¬(hasPre ("private".data) r = true ∧ (r.drop 7).takeWhile isWs ≠ [])) :
    promMatch (w0 ++ r) = none := by
  have htw : (w0 ++ r).takeWhile isWs = w0 :=
    takeWhile_ws_prefix w0 r hw0 (fun c hc => (hr c hc).1)
  unfold promMatch
  rw [List.findSome?_eq_none]
  intro q hq
  unfold wsSplits at hq
  rw [htw] at hq
  obtain ⟨i, hi, hqi⟩ := List.mem_map.mp hq
  rw [List.mem_range] at hi
  subst hqi
  have hk : w0.length - i ≤ w0.length := Nat.sub_le _ _
  have hdropk : (w0 ++ r).drop (w0.length - i) = w0.drop (w0.length - i) ++ r :=
    List.drop_append_of_le_length hk
  simp only [hdropk]
  rw [promStarLoop_none]
  · rfl
  · -- head of the remaining text is a whitespace character of `w0` or the head of `r`
    intro c hc
    cases hdk : w0.drop (w0.length - i) with
    | nil =>
      rw [hdk] at hc
      simp only [List.nil_append] at hc
      exact (hr c hc).2
    | cons d tl =>
      rw [hdk] at hc
      simp only [List.cons_append, List.head?_cons] at hc
      have hd : d = c := Option.some_inj.mp hc
      subst hd
      have hdw : isWs d = true := hw0 d (List.mem_of_mem_drop (by rw [hdk]; exact List.mem_cons_self d tl))
      constructor
      · intro h
        subst h
        exact absurd hdw (by decide)
      · intro h
        subst h
        exact absurd hdw (by decide)
  · -- the `private`-plus-whitespace exit cannot fire
    cases hdk : w0.drop (w0.length - i) with
    | nil =>
      simp only [List.nil_append]
      cases hb : hasPre ("private".data) r with
      | false => exact Or.inl rfl
      | true =>
        right
        by_contra h2
        exact hnopriv ⟨hb, h2⟩
    | cons d tl =>
      left
      have hdw : isWs d = true := hw0 d (List.mem_of_mem_drop (by rw [hdk]; exact List.mem_cons_self d tl))
      have hdp : ('p' == d) = false := by
        simp only [beq_eq_false_iff_ne, ne_eq]
        intro h
        rw [← h] at hdw
        exact absurd hdw (by decide)
      simp [hasPre, hdp]

/-- **C7 counterexample.** `promotePrivateToProtected` can rewrite a
`private` occurring inside a *leading doc comment*: the member text
`/// private\nint X;` has no accessibility modifier at all, yet the
promotion changes it. -/
theorem promote_rewrites_inside_doc_comment :
    promotePrivateToProtected cePromoteDoc = ("/// protected\nint X;".data) ∧
    cePromoteDoc ≠ ("/// protected\nint X;".data) :=
  ⟨by decide, by decide⟩

/-- **C7 (amended).** Promotion rewrites the first `private` token
reachable after a prefix of whitespace, attributes and doc comments: a
leading `private` modifier becomes `protected` with everything else
byte-identical, and a member text that does not open (after whitespace)
with `[`, `/` or `private`-plus-whitespace is left byte-for-byte
unchanged, so its prepared insertion text differs only by
trailing-whitespace trimming and line-ending normalization.  (The
pattern can also fire inside a leading doc comment — see the
counterexample.)  Interface extraction rewrites exactly a private
method's accessibility token to `public` and produces no edit
otherwise. -/
theorem accessibility_promotion_scoped :
    (∀ w0 w1 r : Str, (∀ c ∈ w0, isWs c = true) → w1 ≠ [] →
      (∀ c ∈ w1, isWs c = true) → (∀ c, r.head? = some c → isWs c = false) →
      promotePrivateToProtected (w0 ++ (("private".data) ++ (w1 ++ r))) =
        w0 ++ (("protected".data) ++ (w1 ++ r))) ∧
    (∀ w0 r : Str, (∀ c ∈ w0, isWs c = true) →
      (∀ c, r.head? = some c → isWs c = false ∧ c ≠ '[' ∧ c ≠ '/') →
      ¬(hasPre ("private".data) r = true ∧ (r.drop 7).takeWhile isWs ≠ []) →
      promotePrivateToProtected (w0 ++ r) = w0 ++ r) ∧
    (∀ text eol, promotePrivateToProtected (trimEndJs text) = trimEndJs text →
      prepareMemberTextForInsertion text eol =
        joinSep eol (splitLines (trimEndJs text))) ∧
    (∀ p, ensureMethodAccessibility (.property p) = none) ∧
    (∀ m rg, m.accessibility = some ("private".data) →
      m.accessibilityRange = some rg →
      ensureMethodAccessibility (.method m) = some (rg, "public".data)) ∧
    (∀ m, m.accessibility ≠ some ("private".data) →
      ensureMethodAccessibility (.method m) = none) := by
  refine ⟨?_, ?_, ?_, ?_, ?_, ?_⟩
  · intro w0 w1 r hw0 hw1ne hw1 hr
    unfold promotePrivateToProtected
    rw [promMatch_leading_private w0 w1 r hw0 hw1ne hw1 hr]
    simp [List.append_assoc]
  · intro w0 r hw0 hr hnp
    unfold promotePrivateToProtected
    rw [promMatch_none w0 r hw0 hr hnp]
  · intro text eol hid
    unfold prepareMemberTextForInsertion
    rw [hid]
  · intro p
    rfl
  · intro m rg ha hrg
    simp [ensureMethodAccessibility, ha, hrg]
  · intro m ha
    cases haq : m.accessibility with
    | none => simp [ensureMethodAccessibility, haq]
    | some a =>
      cases hrq : m.accessibilityRange with
      | none => simp [ensureMethodAccessibility, haq, hrq]
      | some rg =>
        have hane : a ≠ "private".data := by
          intro h
          subst h
          exact ha haq
        simp [ensureMethodAccessibility, haq, hrq, hane]

/-- Witness for the amended C7: `private int x;` is promoted to
`protected int x;`, and `  protected int x;` is untouched. -/
theorem accessibility_promotion_scoped_witness :
    promotePrivateToProtected (([] : Str) ++ (("private".data) ++
        (([' '] : Str) ++ ("int x;".data)))) =
      ([] : Str) ++ (("protected".data) ++ (([' '] : Str) ++ ("int x;".data))) ∧
    promotePrivateToProtected (([' ', ' '] : Str) ++ ("protected int x;".data)) =
      ([' ', ' '] : Str) ++ ("protected int x;".data) :=
  ⟨accessibility_promotion_scoped.1 [] [' '] ("int x;".data)
      (by decide) (by decide) (by decide) (by decide),
   accessibility_promotion_scoped.2.1 [' ', ' '] ("protected int x;".data)
      (by decide) (by decide) (by decide)⟩

/-! ### C3: helper lemmas about the candidate fold and the worklist loop -/

theorem collectStep_stack_mono (root : MovableClassMemberInfo)
    (all : List MovableClassMemberInfo) (current : MovableClassMemberInfo)
    (s2 : Finset (Nat × Nat)) :
    ∀ (l : List {x : MovableClassMemberInfo // x ∈ all})
      (sq : List {m : MovableClassMemberInfo // m ∈ root :: all} × Finset (Nat × Nat))
      (s : {m : MovableClassMemberInfo // m ∈ root :: all}), s ∈ sq.1 →
      s ∈ (l.foldl (collectStep root all current s2) sq).1 := by
  intro l
  induction l with
  | nil => intro sq s hs; simpa using hs
  | cons c cs ih =>
    intro sq s hs
    rw [List.foldl_cons]
    apply ih
    unfold collectStep
    split
    · exact hs
    · split
      · exact hs
      · split
        · exact List.mem_cons_of_mem _ hs
        · exact hs

theorem collectStep_queued_mono (root : MovableClassMemberInfo)
    (all : List MovableClassMemberInfo) (current : MovableClassMemberInfo)
    (s2 : Finset (Nat × Nat)) :
    ∀ (l : List {x : MovableClassMemberInfo // x ∈ all})
      (sq : List {m : MovableClassMemberInfo // m ∈ root :: all} × Finset (Nat × Nat))
      (k : Nat × Nat), k ∈ sq.2 →
      k ∈ (l.foldl (collectStep root all current s2) sq).2 := by
  intro l
  induction l with
  | nil => intro sq k hk; simpa using hk
  | cons c cs ih =>
    intro sq k hk
    rw [List.foldl_cons]
    apply ih
    unfold collectStep
    split
    · exact hk
    · split
      · exact hk
      · split
        · exact Finset.mem_insert_of_mem hk
        · exact hk

theorem collectStep_queued_src (root : MovableClassMemberInfo)
    (all : List MovableClassMemberInfo) (current : MovableClassMemberInfo)
    (s2 : Finset (Nat × Nat)) :
    ∀ (l : List {x : MovableClassMemberInfo // x ∈ all})
      (sq : List {m : MovableClassMemberInfo // m ∈ root :: all} × Finset (Nat × Nat))
      (k : Nat × Nat), k ∈ (l.foldl (collectStep root all current s2) sq).2 →
      k ∈ sq.2 ∨ ∃ s ∈ (l.foldl (collectStep root all current s2) sq).1,
        memberKey s.val = k := by
  intro l
  induction l with
  | nil => intro sq k hk; exact Or.inl (by simpa using hk)
  | cons c cs ih =>
    intro sq k hk
    rw [List.foldl_cons] at hk ⊢
    by_cases h1 : c.val = current
    · have hred : collectStep root all current s2 sq c = sq := by
        unfold collectStep; rw [if_pos h1]
      rw [hred] at hk ⊢
      exact ih sq k hk
    · by_cases h2 : memberKey c.val ∈ s2 ∨ memberKey c.val ∈ sq.2
      · have hred : collectStep root all current s2 sq c = sq := by
          unfold collectStep; rw [if_neg h1, if_pos h2]
        rw [hred] at hk ⊢
        exact ih sq k hk
      · by_cases h3 : usesMemberName current.text c.val.name = true
        · have hred : collectStep root all current s2 sq c =
              (⟨c.val, List.mem_cons_of_mem root c.prop⟩ :: sq.1,
                insert (memberKey c.val) sq.2) := by
            unfold collectStep; rw [if_neg h1, if_neg h2, if_pos h3]
          rw [hred] at hk ⊢
          rcases ih _ k hk with h | h
          · rcases Finset.mem_insert.mp h with h4 | h4
            · subst h4
              exact Or.inr ⟨⟨c.val, List.mem_cons_of_mem root c.prop⟩,
                collectStep_stack_mono root all current s2 cs _ _
                  (List.mem_cons_self _ _), rfl⟩
            · exact Or.inl h4
          · exact Or.inr h
        · have hred : collectStep root all current s2 sq c = sq := by
            unfold collectStep; rw [if_neg h1, if_neg h2, if_neg h3]
          rw [hred] at hk ⊢
          exact ih sq k hk

theorem collectStep_uses_queued (root : MovableClassMemberInfo)
    (all : List MovableClassMemberInfo) (current : MovableClassMemberInfo)
    (s2 : Finset (Nat × Nat)) (hcur : memberKey current ∈ s2) :
    ∀ (l : List {x : MovableClassMemberInfo // x ∈ all})
      (sq : List {m : MovableClassMemberInfo // m ∈ root :: all} × Finset (Nat × Nat))
      (b : MovableClassMemberInfo) (hb : b ∈ all), (⟨b, hb⟩ : {x // x ∈ all}) ∈ l →
      usesMemberName current.text b.name = true →
      memberKey b ∈ s2 ∨ memberKey b ∈ (l.foldl (collectStep root all current s2) sq).2 := by
  intro l
  induction l with
  | nil => intro sq b hb hmem; exact absurd hmem (List.not_mem_nil _)
  | cons c cs ih =>
    intro sq b hb hmem huse
    rw [List.foldl_cons]
    rcases List.mem_cons.mp hmem with he | htail
    · have hcv : c.val = b := by rw [← he]
      by_cases h1 : c.val = current
      · rw [← hcv, h1]
        exact Or.inl hcur
      · by_cases h2 : memberKey c.val ∈ s2 ∨ memberKey c.val ∈ sq.2
        · rcases h2 with h2 | h2
          · rw [← hcv]; exact Or.inl h2
          · rw [← hcv]
            exact Or.inr (collectStep_queued_mono root all current s2 cs _ _
              (by
                unfold collectStep
                by_cases h2a : memberKey c.val ∈ s2 ∨ memberKey c.val ∈ sq.2
                · rw [if_neg h1, if_pos h2a]; exact h2
                · exact absurd (Or.inr h2) h2a))
        · by_cases h3 : usesMemberName current.text c.val.name = true
          · have hred : collectStep root all current s2 sq c =
                (⟨c.val, List.mem_cons_of_mem root c.prop⟩ :: sq.1,
                  insert (memberKey c.val) sq.2) := by
              unfold collectStep; rw [if_neg h1, if_neg h2, if_pos h3]
            rw [hred, ← hcv]
            exact Or.inr (collectStep_queued_mono root all current s2 cs _ _
              (Finset.mem_insert_self _ _))
          · rw [hcv] at h3
            exact absurd huse h3
    · exact ih _ b hb htail huse

theorem collectLoop_nil (root : MovableClassMemberInfo)
    (all : List MovableClassMemberInfo) (seen queued : Finset (Nat × Nat))
    (result : List MovableClassMemberInfo) :
    collectLoop root all [] seen queued result = result := by
  rw [collectLoop]

theorem collectLoop_cons_seen (root : MovableClassMemberInfo)
    (all : List MovableClassMemberInfo)
    (current : {m : MovableClassMemberInfo // m ∈ root :: all})
    (rest : List {m : MovableClassMemberInfo // m ∈ root :: all})
    (seen queued : Finset (Nat × Nat)) (result : List MovableClassMemberInfo)
    (h : memberKey current.val ∈ seen) :
    collectLoop root all (current :: rest) seen queued result =
      collectLoop root all rest seen queued result := by
  rw [collectLoop]
  rw [if_pos h]

theorem collectLoop_cons_new (root : MovableClassMemberInfo)
    (all : List MovableClassMemberInfo)
    (current : {m : MovableClassMemberInfo // m ∈ root :: all})
    (rest : List {m : MovableClassMemberInfo // m ∈ root :: all})
    (seen queued : Finset (Nat × Nat)) (result : List MovableClassMemberInfo)
    (h : memberKey current.val ∉ seen) :
    collectLoop root all (current :: rest) seen queued result =
      collectLoop root all
        (all.attach.foldl
          (collectStep root all current.val (insert (memberKey current.val) seen))
          (rest, queued)).1
        (insert (memberKey current.val) seen)
        (all.attach.foldl
          (collectStep root all current.val (insert (memberKey current.val) seen))
          (rest, queued)).2
        (result ++ [current.val]) := by
  rw [collectLoop]
  rw [if_neg h]

theorem collectLoop_measure_lt (root : MovableClassMemberInfo)
    (all : List MovableClassMemberInfo)
    (current : {m : MovableClassMemberInfo // m ∈ root :: all})
    (rest : List {m : MovableClassMemberInfo // m ∈ root :: all})
    (seen queued : Finset (Nat × Nat))
    (h : memberKey current.val ∉ seen) :
    ((((root :: all).map memberKey).toFinset \
        insert (memberKey current.val) seen).card) * (all.length + 1) +
      (all.attach.foldl
        (collectStep root all current.val (insert (memberKey current.val) seen))
        (rest, queued)).1.length <
    ((((root :: all).map memberKey).toFinset \ seen).card) * (all.length + 1) +
      (rest.length + 1) := by
  have hlen : ∀ (s2 : Finset (Nat × Nat)) (l : List {x : MovableClassMemberInfo // x ∈ all})
      (sq : List {m : MovableClassMemberInfo // m ∈ root :: all} × Finset (Nat × Nat)),
      (l.foldl (collectStep root all current.val s2) sq).1.length ≤
        sq.1.length + l.length := by
    intro s2 l
    induction l with
    | nil => intro sq; simp
    | cons c cs ih =>
      intro sq
      have hstep : (collectStep root all current.val s2 sq c).1.length ≤
          sq.1.length + 1 := by
        unfold collectStep
        split
        · omega
        · split
          · omega
          · split
            · simp
            · omega
      have hfold : ((c :: cs).foldl (collectStep root all current.val s2) sq).1.length
          = (cs.foldl (collectStep root all current.val s2)
              (collectStep root all current.val s2 sq c)).1.length := by
        rw [List.foldl_cons]
      have hih := ih (collectStep root all current.val s2 sq c)
      simp only [List.length_cons]
      omega
  have hkey : memberKey current.val ∈ ((root :: all).map memberKey).toFinset := by
    rw [List.mem_toFinset]
    exact List.mem_map_of_mem memberKey current.prop
  have hcard : ((((root :: all).map memberKey).toFinset \
        insert (memberKey current.val) seen).card) <
      ((((root :: all).map memberKey).toFinset \ seen).card) := by
    apply Finset.card_lt_card
    constructor
    · intro x hx
      rw [Finset.mem_sdiff] at hx ⊢
      refine ⟨hx.1, fun hxs => hx.2 (Finset.mem_insert_of_mem hxs)⟩
    · intro hsub
      have h2 : memberKey current.val ∈
          ((root :: all).map memberKey).toFinset \ seen := by
        rw [Finset.mem_sdiff]
        exact ⟨hkey, h⟩
      have h3 := hsub h2
      rw [Finset.mem_sdiff] at h3
      exact h3.2 (Finset.mem_insert_self _ _)
  have hstep2 := hlen (insert (memberKey current.val) seen) all.attach (rest, queued)
  simp only [List.length_attach] at hstep2
  have hA : ((((root :: all).map memberKey).toFinset \
        insert (memberKey current.val) seen).card) + 1 ≤
      ((((root :: all).map memberKey).toFinset \ seen).card) := hcard
  have hmul : (((((root :: all).map memberKey).toFinset \
        insert (memberKey current.val) seen).card) + 1) *
      (all.length + 1) ≤
      ((((root :: all).map memberKey).toFinset \ seen).card) * (all.length + 1) :=
    Nat.mul_le_mul_right _ hA
  rw [Nat.succ_mul] at hmul
  omega

/-- Invariant-threading specification of the worklist loop: processed
members persist into the output, every stacked key is eventually
represented, the output stays within `root :: all`, has pairwise
distinct keys, and is closed under `usesMemberName` up to keys. -/
theorem collectLoop_spec (root : MovableClassMemberInfo)
    (all : List MovableClassMemberInfo)
    (stack : List {m : MovableClassMemberInfo // m ∈ root :: all})
    (seen queued : Finset (Nat × Nat)) (result : List MovableClassMemberInfo)
    (h1 : ∀ m ∈ result, m ∈ root :: all)
    (h2 : result.Pairwise (fun a b => memberKey a ≠ memberKey b))
    (h3 : ∀ m ∈ result, memberKey m ∈ seen)
    (h4 : ∀ k ∈ seen, ∃ m ∈ result, memberKey m = k)
    (h5 : ∀ k ∈ queued, k ∈ seen ∨ ∃ s ∈ stack, memberKey s.val = k)
    (h7 : ∀ a ∈ result, ∀ b ∈ all, usesMemberName a.text b.name = true →
      memberKey b ∈ queued ∨ memberKey b ∈ seen) :
    (∀ m ∈ result, m ∈ collectLoop root all stack seen queued result) ∧
    (∀ s ∈ stack, ∃ m ∈ collectLoop root all stack seen queued result,
      memberKey m = memberKey s.val) ∧
    (∀ m ∈ collectLoop root all stack seen queued result, m ∈ root :: all) ∧
    (collectLoop root all stack seen queued result).Pairwise
      (fun a b => memberKey a ≠ memberKey b) ∧
    (∀ a ∈ collectLoop root all stack seen queued result, ∀ b ∈ all,
      usesMemberName a.text b.name = true →
      ∃ m ∈ collectLoop root all stack seen queued result,
        memberKey m = memberKey b) := by
  cases hst : stack with
  | nil =>
    rw [hst] at h5
    rw [collectLoop_nil]
    refine ⟨fun m hm => hm, ?_, h1, h2, ?_⟩
    · intro s hs
      exact absurd hs (List.not_mem_nil _)
    · intro a ha b hb huse
      rcases h7 a ha b hb huse with hq | hsn
      · rcases h5 _ hq with hsn | ⟨s, hs, _⟩
        · exact h4 _ hsn
        · exact absurd hs (List.not_mem_nil _)
      · exact h4 _ hsn
  | cons current rest =>
    rw [hst] at h5
    by_cases hseen : memberKey current.val ∈ seen
    · rw [collectLoop_cons_seen root all current rest seen queued result hseen]
      have h5' : ∀ k ∈ queued, k ∈ seen ∨ ∃ s ∈ rest, memberKey s.val = k := by
        intro k hk
        rcases h5 k hk with hs | ⟨s, hs, hkey⟩
        · exact Or.inl hs
        · rcases List.mem_cons.mp hs with he | ht
          · subst he
            exact Or.inl (hkey ▸ hseen)
          · exact Or.inr ⟨s, ht, hkey⟩
      obtain ⟨A, B, C, D, E⟩ :=
        collectLoop_spec root all rest seen queued result h1 h2 h3 h4 h5' h7
      refine ⟨A, ?_, C, D, E⟩
      intro s hs
      rcases List.mem_cons.mp hs with he | ht
      · subst he
        obtain ⟨m, hm, hkeq⟩ := h4 _ hseen
        exact ⟨m, A m hm, hkeq⟩
      · exact B s ht
    · rw [collectLoop_cons_new root all current rest seen queued result hseen]
      have hcur : memberKey current.val ∈ insert (memberKey current.val) seen :=
        Finset.mem_insert_self _ _
      have h1' : ∀ m ∈ result ++ [current.val], m ∈ root :: all := by
        intro m hm
        rcases List.mem_append.mp hm with hm | hm
        · exact h1 m hm
        · rw [List.mem_singleton.mp hm]
          exact current.prop
      have h2' : (result ++ [current.val]).Pairwise
          (fun a b => memberKey a ≠ memberKey b) := by
        rw [List.pairwise_append]
        refine ⟨h2, List.pairwise_singleton _ _, ?_⟩
        intro a ha b hb
        rw [List.mem_singleton.mp hb]
        intro heq
        exact hseen (heq ▸ h3 a ha)
      have h3' : ∀ m ∈ result ++ [current.val],
          memberKey m ∈ insert (memberKey current.val) seen := by
        intro m hm
        rcases List.mem_append.mp hm with hm | hm
        · exact Finset.mem_insert_of_mem (h3 m hm)
        · rw [List.mem_singleton.mp hm]
          exact hcur
      have h4' : ∀ k ∈ insert (memberKey current.val) seen,
          ∃ m ∈ result ++ [current.val], memberKey m = k := by
        intro k hk
        rcases Finset.mem_insert.mp hk with hk | hk
        · exact ⟨current.val,
            List.mem_append_right _ (List.mem_singleton_self _), hk.symm⟩
        · obtain ⟨m, hm, hkeq⟩ := h4 k hk
          exact ⟨m, List.mem_append_left _ hm, hkeq⟩
      have h5' : ∀ k ∈ (all.attach.foldl
            (collectStep root all current.val (insert (memberKey current.val) seen))
            (rest, queued)).2,
          k ∈ insert (memberKey current.val) seen ∨
          ∃ s ∈ (all.attach.foldl
            (collectStep root all current.val (insert (memberKey current.val) seen))
            (rest, queued)).1, memberKey s.val = k := by
        intro k hk
        rcases collectStep_queued_src root all current.val _ all.attach _ k hk with
          hk2 | hk2
        · rcases h5 k hk2 with hs | ⟨s, hs, hkey⟩
          · exact Or.inl (Finset.mem_insert_of_mem hs)
          · rcases List.mem_cons.mp hs with he | ht
            · subst he
              exact Or.inl (hkey ▸ hcur)
            · exact Or.inr ⟨s,
                collectStep_stack_mono root all current.val _ all.attach
                  (rest, queued) s ht, hkey⟩
        · exact Or.inr hk2
      have h7' : ∀ a ∈ result ++ [current.val], ∀ b ∈ all,
          usesMemberName a.text b.name = true →
          memberKey b ∈ (all.attach.foldl
            (collectStep root all current.val (insert (memberKey current.val) seen))
            (rest, queued)).2 ∨
          memberKey b ∈ insert (memberKey current.val) seen := by
        intro a ha b hb huse
        rcases List.mem_append.mp ha with ha | ha
        · rcases h7 a ha b hb huse with hq | hsn
          · exact Or.inl (collectStep_queued_mono root all current.val _ all.attach
              (rest, queued) _ hq)
          · exact Or.inr (Finset.mem_insert_of_mem hsn)
        · rw [List.mem_singleton.mp ha] at huse
          rcases collectStep_uses_queued root all current.val _ hcur all.attach
            (rest, queued) b hb (List.mem_attach all ⟨b, hb⟩) huse with hs | hq
          · exact Or.inr hs
          · exact Or.inl hq
      obtain ⟨A, B, C, D, E⟩ :=
        collectLoop_spec root all
          (all.attach.foldl
            (collectStep root all current.val (insert (memberKey current.val) seen))
            (rest, queued)).1
          (insert (memberKey current.val) seen)
          (all.attach.foldl
            (collectStep root all current.val (insert (memberKey current.val) seen))
            (rest, queued)).2
          (result ++ [current.val]) h1' h2' h3' h4' h5' h7'
      refine ⟨?_, ?_, C, D, E⟩
      · intro m hm
        exact A m (List.mem_append_left _ hm)
      · intro s hs
        rcases List.mem_cons.mp hs with he | ht
        · exact ⟨current.val,
            A current.val (List.mem_append_right _ (List.mem_singleton_self _)),
            by rw [he]⟩
        · exact B s (collectStep_stack_mono root all current.val _ all.attach
            (rest, queued) s ht)
termination_by
  ((((root :: all).map memberKey).toFinset \ seen).card) * (all.length + 1) + stack.length
decreasing_by
  · rw [hst]
    simp only [List.length_cons]
    omega
  · rw [hst]
    simp only [List.length_cons]
    exact collectLoop_measure_lt root all current rest seen queued hseen

/-- C3: On a member list whose range-start keys are pairwise distinct
(as holds for members extracted from one document), the move-to-base
dependency closure is reflexive and transitive and duplicate-free: when
the triggering member's text uses B's name as a whole-word token and B's
text uses C's name, the computed move set contains the triggering
member, B and C exactly once each, and no member at all appears twice,
whatever the traversal order did. -/
theorem collect_dependency_closure (root B C : MovableClassMemberInfo)
    (all : List MovableClassMemberInfo)
    (hpw : (root :: all).Pairwise (fun a b => memberKey a ≠ memberKey b))
    (hB : B ∈ all) (hC : C ∈ all)
    (hAB : usesMemberName root.text B.name = true)
    (hBC : usesMemberName B.text C.name = true) :
    (collectMembersWithDependencies root all).count root = 1 ∧
    (collectMembersWithDependencies root all).count B = 1 ∧
    (collectMembersWithDependencies root all).count C = 1 ∧
    ∀ m : MovableClassMemberInfo,
      (collectMembersWithDependencies root all).count m ≤ 1 := by
  obtain ⟨_, Bst, Cc, Dc, Ec⟩ :=
    collectLoop_spec root all [⟨root, List.mem_cons_self root all⟩] ∅ {memberKey root} []
      (by intro m hm; exact absurd hm (List.not_mem_nil _))
      List.Pairwise.nil
      (by intro m hm; exact absurd hm (List.not_mem_nil _))
      (by intro k hk; exact absurd hk (Finset.not_mem_empty _))
      (by
        intro k hk
        rw [Finset.mem_singleton] at hk
        exact Or.inr ⟨⟨root, List.mem_cons_self root all⟩, List.mem_cons_self _ _,
          hk.symm⟩)
      (by intro a ha; exact absurd ha (List.not_mem_nil _))
  have hout : collectMembersWithDependencies root all =
      collectLoop root all [⟨root, List.mem_cons_self root all⟩] ∅
        {memberKey root} [] := rfl
  rw [← hout] at Bst Cc Dc Ec
  have hsymm : Symmetric (fun a b : MovableClassMemberInfo =>
      memberKey a ≠ memberKey b) := by
    intro a b h
    exact fun he => h he.symm
  have hinj : ∀ x ∈ root :: all, ∀ y ∈ root :: all,
      memberKey x = memberKey y → x = y := by
    intro x hx y hy hk
    by_contra hne
    exact hpw.forall hsymm hx hy hne hk
  have hrootmem : root ∈ collectMembersWithDependencies root all := by
    obtain ⟨m, hm, hkeq⟩ := Bst ⟨root, List.mem_cons_self root all⟩
      (List.mem_cons_self _ _)
    have hm2 : m = root := hinj m (Cc m hm) root (List.mem_cons_self root all) hkeq
    rwa [hm2] at hm
  have hBmem : B ∈ collectMembersWithDependencies root all := by
    obtain ⟨m, hm, hkeq⟩ := Ec root hrootmem B hB hAB
    have hm2 : m = B := hinj m (Cc m hm) B (List.mem_cons_of_mem root hB) hkeq
    rwa [hm2] at hm
  have hCmem : C ∈ collectMembersWithDependencies root all := by
    obtain ⟨m, hm, hkeq⟩ := Ec B hBmem C hC hBC
    have hm2 : m = C := hinj m (Cc m hm) C (List.mem_cons_of_mem root hC) hkeq
    rwa [hm2] at hm
  have hnodup : (collectMembersWithDependencies root all).Nodup := by
    refine Dc.imp ?_
    intro a b hk he
    exact hk (by rw [he])
  refine ⟨List.count_eq_one_of_mem hnodup hrootmem,
    List.count_eq_one_of_mem hnodup hBmem,
    List.count_eq_one_of_mem hnodup hCmem, ?_⟩
  intro m
  exact List.nodup_iff_count_le_one.mp hnodup m

/-- Witness for C3 at the concrete three-member chain. -/
theorem collect_dependency_closure_witness :
    (c3root :: [c3B, c3C]).Pairwise (fun a b => memberKey a ≠ memberKey b) ∧
    c3B ∈ [c3B, c3C] ∧ c3C ∈ [c3B, c3C] ∧
    usesMemberName c3root.text c3B.name = true ∧
    usesMemberName c3B.text c3C.name = true ∧
    ((collectMembersWithDependencies c3root [c3B, c3C]).count c3root = 1 ∧
     (collectMembersWithDependencies c3root [c3B, c3C]).count c3B = 1 ∧
     (collectMembersWithDependencies c3root [c3B, c3C]).count c3C = 1 ∧
     ∀ m : MovableClassMemberInfo,
       (collectMembersWithDependencies c3root [c3B, c3C]).count m ≤ 1) :=
  ⟨by decide, by decide, by decide, by decide, by decide,
    collect_dependency_closure c3root c3B c3C [c3B, c3C] (by decide) (by decide)
      (by decide) (by decide) (by decide)⟩
